import Mathlib

/-!
Verification of the naming-inference core of the media-organizer script
(jellyfin_organizer.py): season/disc/episode extraction from names, the
per-season episode counter, the rename planner, the script emitter and
the application of the emitted script to a directory tree.

Strings are modelled as Lean `String` (lists of unicode code points, as
in Python 3).  The regular-expression searches of the source are
implemented as explicit left-to-right scanners; each scanner's doc
comment records the regex it implements and why the implementation's
determinisation (maximal digit runs, ordered alternation) agrees with
Python's leftmost-match backtracking semantics on these patterns.
Case mapping is implemented for ASCII; all configuration keywords and
all canonical names produced by the planner are ASCII.
-/

/-- ASCII lower-casing of one character (Python str.lower on ASCII). -/
def lowChar (c : Char) : Char :=
  if 'A' ≤ c ∧ c ≤ 'Z' then Char.ofNat (c.toNat + 32) else c

/-- ASCII upper-casing of one character (Python str.upper on ASCII). -/
def upChar (c : Char) : Char :=
  if 'a' ≤ c ∧ c ≤ 'z' then Char.ofNat (c.toNat - 32) else c

/-- Python str.lower, restricted to ASCII case mapping. -/
def lowStr (s : String) : String := ⟨s.data.map lowChar⟩

/-- Python str.upper, restricted to ASCII case mapping. -/
def upStr (s : String) : String := ⟨s.data.map upChar⟩

/-- Decimal digit test, the regex class \d restricted to ASCII digits. -/
def isDigitCh (c : Char) : Bool := decide ('0' ≤ c) && decide (c ≤ '9')

/-- Numeric value of a decimal digit character. -/
def digitVal (c : Char) : Nat := c.toNat - 48

/-- Value of a run of decimal digit characters (Python int() on the
matched group). -/
def digitsVal (l : List Char) : Nat := l.foldl (fun a c => a * 10 + digitVal c) 0

/-- The separator class [_.\-\s] of the source's regexes (\s as the
ASCII whitespace characters). -/
def isSepCh (c : Char) : Bool :=
  c = '_' || c = '.' || c = '-' || c = ' ' || c = '\t' || c = '\n' ||
  c = '\r' || c = '\x0b' || c = '\x0c'

/-- Case-insensitive literal prefix match: if the pattern is a prefix of
the input up to ASCII case, return the rest of the input. -/
def ciMatch : List Char → List Char → Option (List Char)
  | [], l => some l
  | _ :: _, [] => none
  | p :: ps, c :: cs => if lowChar c = lowChar p then ciMatch ps cs else none

/-- The tail [_.\-\s]?(\d+) of the season/disc regexes: an optional
separator character followed by a nonempty maximal digit run.  The
greedy optional separator with backtracking is equivalent to: consume
the separator exactly when a digit follows it (separators and digits
are disjoint, so a failed separator branch can only be rescued by the
empty branch). -/
def sepDigits (l : List Char) : Option Nat :=
  let l' := match l with
    | c :: rest => if isSepCh c && !(rest.takeWhile isDigitCh).isEmpty then rest else l
    | [] => l
  let ds := l'.takeWhile isDigitCh
  if ds.isEmpty then none else some (digitsVal ds)

/-- Ordered alternation (?:p₁|p₂|...) followed by sepDigits, anchored at
the current position; regex alternation tries the branches left to
right. -/
def tryPats : List (List Char) → List Char → Option Nat
  | [], _ => none
  | p :: ps, l =>
    match ciMatch p l with
    | some rest =>
      match sepDigits rest with
      | some v => some v
      | none => tryPats ps l
    | none => tryPats ps l

/-- re.search: try the anchored match at each position, leftmost first.
None of the patterns can match the empty suffix (they all require at
least one character), so the scan stops at the end of the input. -/
def searchPats (pats : List (List Char)) : List Char → Option Nat
  | [] => none
  | c :: cs =>
    match tryPats pats (c :: cs) with
    | some v => some v
    | none => searchPats pats cs

/-- The alternatives of the season regex (?:season|staffel|s). -/
def seasonPats : List (List Char) :=
  [['s','e','a','s','o','n'], ['s','t','a','f','f','e','l'], ['s']]

/-- ShowProcessor.get_clean_season_num: re.search of
(?:season|staffel|s)[_.\-\s]?(\d+) with IGNORECASE over the folder
name. -/
def getCleanSeasonNum (name : String) : Option Nat :=
  searchPats seasonPats name.data

/-- The alternatives of the disc regex (?:disc|disk|dvd|d). -/
def discPats : List (List Char) :=
  [['d','i','s','c'], ['d','i','s','k'], ['d','v','d'], ['d']]

/-- Decimal digits of a natural number, most significant first
(Python str(n) for n : Nat). -/
def digitCh (n : Nat) : Char := Char.ofNat (48 + n)

/-- Digit emission with explicit fuel so that the kernel can evaluate
it; fuel n suffices since n/10 shrinks at every step. -/
def natStrAux : Nat → Nat → List Char
  | 0, n => [digitCh n]
  | f + 1, n =>
    if n < 10 then [digitCh n]
    else natStrAux f (n / 10) ++ [digitCh (n % 10)]

def natStr (n : Nat) : List Char := natStrAux n n

/-- re.sub(pat, "", s, IGNORECASE) for a literal nonempty pattern:
remove every non-overlapping occurrence, scanning left to right.
Fuel-indexed so that the kernel can evaluate it; each step consumes at
least one character, so fuel = length of the input suffices. -/
def subCIAux (p0 : Char) (ps : List Char) : Nat → List Char → List Char
  | 0, l => l
  | _ + 1, [] => []
  | f + 1, c :: cs =>
    match ciMatch (p0 :: ps) (c :: cs) with
    | some rest => subCIAux p0 ps f rest
    | none => c :: subCIAux p0 ps f cs

def subCI (p0 : Char) (ps : List Char) (l : List Char) : List Char :=
  subCIAux p0 ps l.length l

/-- Anchored match of the fallback disc regex s(\d+)d(\d+) with
IGNORECASE: the first digit run is maximal (a shorter run would leave a
digit where the regex requires d). -/
def sdMatchAt (l : List Char) : Option (Nat × Nat) :=
  match l with
  | c :: rest =>
    if c = 's' || c = 'S' then
      let ds := rest.takeWhile isDigitCh
      if ds.isEmpty then none
      else
        match rest.drop ds.length with
        | d :: rest2 =>
          if d = 'd' || d = 'D' then
            let es := rest2.takeWhile isDigitCh
            if es.isEmpty then none else some (digitsVal ds, digitsVal es)
          else none
        | [] => none
    else none
  | [] => none

/-- re.search of s(\d+)d(\d+), leftmost position first. -/
def searchSD : List Char → Option (Nat × Nat)
  | [] => none
  | c :: cs =>
    match sdMatchAt (c :: cs) with
    | some v => some v
    | none => searchSD cs

/-- ShowProcessor.get_clean_disc_num: first strip every occurrence of
"s{season_num}" (re.sub, IGNORECASE), then search for
(?:disc|disk|dvd|d)[_.\-\s]?(\d+); if that fails, search the original
name for s(\d+)d(\d+).  As in the source, when the fallback matches but
its season group differs from season_num, the function returns the
fallback's FIRST group (the season digits), because the final
`return int(match.group(1)) if match else None` still sees the fallback
match object. -/
def getCleanDiscNum (name : String) (seasonNum : Nat) : Option Nat :=
  let temp := subCI 's' (natStr seasonNum) name.data
  match searchPats discPats temp with
  | some v => some v
  | none =>
    match searchSD name.data with
    | some (a, b) => if a = seasonNum then some b else some a
    | none => none

/-- Anchored match of [sS]\d+[eE](\d+): both digit runs are maximal
(a shortened first run would leave a digit where [eE] is required). -/
def epMatchAt (l : List Char) : Option Nat :=
  match l with
  | c :: rest =>
    if c = 's' || c = 'S' then
      if (rest.takeWhile isDigitCh).isEmpty then none
      else
        match rest.drop (rest.takeWhile isDigitCh).length with
        | e :: rest2 =>
          if e = 'e' || e = 'E' then
            if (rest2.takeWhile isDigitCh).isEmpty then none
            else some (digitsVal (rest2.takeWhile isDigitCh))
          else none
        | [] => none
    else none
  | [] => none

/-- re.search of [sS]\d+[eE](\d+), leftmost position first. -/
def searchEp : List Char → Option Nat
  | [] => none
  | c :: cs =>
    match epMatchAt (c :: cs) with
    | some v => some v
    | none => searchEp cs

/-- ShowProcessor.get_episode_from_file. -/
def getEpisodeFromFile (filename : String) : Option Nat :=
  searchEp filename.data

/-- pathlib.PurePath.suffix: the substring from the last dot of the
name, provided that dot is neither the first nor the last character;
otherwise the empty string. -/
def pathSuffix (name : String) : String :=
  let l := name.data
  let r := l.reverse
  let t := r.takeWhile (fun c => c ≠ '.')
  if t.length < r.length && !t.isEmpty && t.length + 1 ≠ l.length then
    ⟨'.' :: t.reverse⟩
  else ""

/-- An extension as pathSuffix produces it: empty or led by a dot. -/
def extOk (ext : String) : Prop := ext = "" ∨ ∃ t, ext.data = '.' :: t

/-- The VIDEO_EXTENSIONS configuration set. -/
def VIDEO_EXTENSIONS : List String := [".mkv", ".mp4", ".avi", ".m4v", ".iso", ".wmv"]

/-- The FOLDER_IGNORE_KEYWORDS configuration list. -/
def FOLDER_IGNORE_KEYWORDS : List String :=
  ["RAZOR", "THE PLAN", "CONQUEST", "EXTRAS", "SPECIALS", "FEATURETTES", "SAMPLE"]

/-- The FILE_IGNORE_KEYWORDS configuration list. -/
def FILE_IGNORE_KEYWORDS : List String := ["[IGNORE]", "SAMPLE", "TRAILER"]

/-- x.suffix.lower() in VIDEO_EXTENSIONS. -/
def isVideoName (n : String) : Bool := VIDEO_EXTENSIONS.contains (lowStr (pathSuffix n))

/-- Literal prefix test on character lists. -/
def startsList : List Char → List Char → Bool
  | [], _ => true
  | _ :: _, [] => false
  | p :: ps, c :: cs => p = c && startsList ps cs

/-- Python's substring operator `in` for character lists (the pattern
occurs contiguously somewhere in the text). -/
def hasSub (p : List Char) : List Char → Bool
  | [] => p.isEmpty
  | c :: cs => startsList p (c :: cs) || hasSub p cs

/-- ShowProcessor.should_ignore_file: any keyword (upper-cased) is a
substring of the upper-cased file name. -/
def shouldIgnoreFile (n : String) : Bool :=
  FILE_IGNORE_KEYWORDS.any (fun k => hasSub (upStr k).data (upStr n).data)

/-- The folder filter of process_show: any keyword is a substring of the
upper-cased folder name. -/
def folderIgnored (n : String) : Bool :=
  FOLDER_IGNORE_KEYWORDS.any (fun k => hasSub k.data (upStr n).data)

/-- %02d: pad to two digits with a leading zero. -/
def pad2 (n : Nat) : List Char := if n < 10 then '0' :: natStr n else natStr n

/-- The canonical target file name f"S{season:02d}E{episode:02d}{suffix}". -/
def canonicalName (s e : Nat) (ext : String) : String :=
  ⟨'S' :: pad2 s ++ 'E' :: pad2 e ++ ext.data⟩

/-- The canonical season folder name f"Season {n}". -/
def seasonDirName (s : Nat) : String :=
  ⟨['S','e','a','s','o','n',' '] ++ natStr s⟩

/-- A filesystem entry as the traversal hands it to the planner: a file
or a directory with its children. -/
inductive Entry where
  | file (name : String)
  | dir (name : String) (children : List Entry)

def Entry.name : Entry → String
  | .file n => n
  | .dir n _ => n

def Entry.isDir : Entry → Bool
  | .file _ => false
  | .dir _ _ => true

def Entry.children : Entry → List Entry
  | .file _ => []
  | .dir _ cs => cs

/-- One recorded RenameOperation: the dict
{original, new_name, season_num, is_root_move}.  Paths are lists of
path components; `original` is the planned file's full path. -/
structure Op where
  original : List String
  newName : String
  seasonNum : Nat
  isRootMove : Bool
deriving DecidableEq, Repr

/-- Source parent folder of an operation. -/
def Op.srcParent (op : Op) : List String := op.original.dropLast

/-- Source file name of an operation. -/
def Op.srcName (op : Op) : String := op.original.getLastD ""

/-- Destination parent folder: for a root move, original.parent /
"Season {n}" (generate_script line 188); otherwise the original
parent. -/
def Op.destParent (op : Op) : List String :=
  if op.isRootMove then op.srcParent ++ [seasonDirName op.seasonNum] else op.srcParent

/-- Full destination path of an operation. -/
def Op.dest (op : Op) : List String := op.destParent ++ [op.newName]

/-- Insertion into a sorted list by a boolean le. -/
def insertSorted (le : α → α → Bool) (x : α) : List α → List α
  | [] => [x]
  | y :: ys => if le x y then x :: y :: ys else y :: insertSorted le x ys

/-- Insertion sort; Python's sorted() for our purposes (directory
listings never hold two entries of equal name, so stability is moot). -/
def sortByB (le : α → α → Bool) (l : List α) : List α :=
  l.foldr (insertSorted le) []

/-- Code-point lexicographic string order, Python's comparison of str
(and of sibling Paths, whose order is decided by the final
component). -/
def listLexLe : List Char → List Char → Bool
  | [], _ => true
  | _ :: _, [] => false
  | a :: as, b :: bs =>
    if a.toNat < b.toNat then true
    else if b.toNat < a.toNat then false
    else listLexLe as bs

def strLe (a b : String) : Bool := listLexLe a.data b.data

/-- Comparison of entries by name, the key used by every sorted() call
of the source. -/
def entryLe (a b : Entry) : Bool := strLe a.name b.name

def sortEntries (l : List Entry) : List Entry := sortByB entryLe l

/-- Python dict assignment d[k] = v on an association list: overwrite
the existing key in place, else append. -/
def mapInsert (m : List (Nat × α)) (k : Nat) (v : α) : List (Nat × α) :=
  if m.any (fun p => p.1 = k) then
    m.map (fun p => if p.1 = k then (k, v) else p)
  else m ++ [(k, v)]

def mapFind (m : List (Nat × α)) (k : Nat) : Option α :=
  match m.find? (fun p => p.1 = k) with
  | some p => some p.2
  | none => none

def mapHasKey (m : List (Nat × α)) (k : Nat) : Bool := m.any (fun p => p.1 = k)

/-- sorted(d.keys()): the keys of the association list in ascending
order (mapInsert keeps keys unique). -/
def mapSortedKeys (m : List (Nat × α)) : List Nat :=
  sortByB (fun a b => decide (a ≤ b)) (m.map (fun p => p.1))

/-- Lines 139-146 of plan_file_rename: from the counter and the result
of get_episode_from_file, the new counter and the assigned episode
number.  `if explicit_ep:` is Python truthiness: None and 0 both take
the else branch. -/
def assignEpisode (counter : Nat) (explicitEp : Option Nat) : Nat × Nat :=
  match explicitEp with
  | some e => if e = 0 then (counter + 1, counter + 1) else (max counter e, e)
  | none => (counter + 1, counter + 1)

/-- ShowProcessor.plan_file_rename: assign an episode number, build the
canonical name, and append an operation when the name changes or the
file is a root-level move.  Returns the updated counter and operation
list. -/
def planFileRename (parent : List String) (fname : String) (seasonNum counter : Nat)
    (isRootMove : Bool) (ops : List Op) : Nat × List Op :=
  if fname ≠ canonicalName seasonNum
        (assignEpisode counter (getEpisodeFromFile fname)).2 (pathSuffix fname) ∨
      isRootMove then
    ((assignEpisode counter (getEpisodeFromFile fname)).1,
      ops ++ [⟨parent ++ [fname],
        canonicalName seasonNum
          (assignEpisode counter (getEpisodeFromFile fname)).2 (pathSuffix fname),
        seasonNum, isRootMove⟩])
  else ((assignEpisode counter (getEpisodeFromFile fname)).1, ops)

/-- The file loops of process_season_content (lines 117-119 and
134-136): skip ignored files, thread the counter through
plan_file_rename. -/
def planFiles (parent : List String) (files : List Entry) (seasonNum : Nat)
    (isRoot : Bool) (st : Nat × List Op) : Nat × List Op :=
  files.foldl (fun st f =>
    if shouldIgnoreFile f.name then st
    else planFileRename parent f.name seasonNum st.1 isRoot st.2) st

/-- One step of the pass over a season folder's sorted children (lines
109-114): a directory with a truthy (present and nonzero) disc number
is put in the disc map, a video file is appended to the direct files,
anything else is skipped. -/
def ddStep (seasonNum : Nat) (acc : List (Nat × Entry) × List Entry) (e : Entry) :
    List (Nat × Entry) × List Entry :=
  match e with
  | .dir _ _ =>
    match getCleanDiscNum e.name seasonNum with
    | some d => if d ≠ 0 then (mapInsert acc.1 d e, acc.2) else acc
    | none => acc
  | .file n => if isVideoName n then (acc.1, acc.2 ++ [e]) else acc

/-- Lines 108-114: one pass over the sorted children of a season
folder, building the disc map (directories whose disc number is truthy,
i.e. present and nonzero) and the list of direct video files. -/
def discsAndDirects (entries : List Entry) (seasonNum : Nat) :
    List (Nat × Entry) × List Entry :=
  (sortEntries entries).foldl (ddStep seasonNum) ([], [])

/-- The video files of a disc folder, sorted by name (line 133). -/
def discFiles (e : Entry) : List Entry :=
  sortByB entryLe (e.children.filter fun x => !x.isDir && isVideoName x.name)

/-- The disc loop of process_season_content (lines 122-136): the discs
in ascending disc-number order, each contributing its video files
through the same threaded counter. -/
def discsFold (cp : List String) (discs : List (Nat × Entry)) (seasonNum : Nat)
    (keys : List Nat) (st : Nat × List Op) : Nat × List Op :=
  keys.foldl (fun st d =>
    match mapFind discs d with
    | some e => planFiles (cp ++ [e.name]) (discFiles e) seasonNum false st
    | none => st) st

/-- ShowProcessor.process_season_content: direct files first, then each
disc in ascending disc number, all through one episode counter starting
at 0.  Returns the operations recorded by this call. -/
def processSeasonContent (cp : List String) (entries : List Entry)
    (rootFilesList : List Entry) (seasonNum : Nat) (isRoot : Bool) : List Op :=
  let dd := if isRoot then ([], sortByB entryLe rootFilesList)
            else discsAndDirects entries seasonNum
  (discsFold cp dd.1 seasonNum (mapSortedKeys dd.1)
    (planFiles cp dd.2 seasonNum isRoot (0, []))).2

/-- A season map entry: an existing folder, or the CREATE_ROOT_S1
sentinel for the implied season 1. -/
inductive SeasonSrc where
  | real (e : Entry)
  | createRootS1

/-- Lines 71-77: map non-ignored folders with a season number to that
number, later folders in sort order overwriting earlier ones. -/
def buildSeasonsMap (folders : List Entry) : List (Nat × SeasonSrc) :=
  folders.foldl (fun m f =>
    if folderIgnored f.name then m
    else
      match getCleanSeasonNum f.name with
      | some s => mapInsert m s (SeasonSrc.real f)
      | none => m) []

/-- Lines 66-67 of process_show: the sorted children, the directory
children, and the root-level video files. -/
def showFolders (entries : List Entry) : List Entry :=
  (sortEntries entries).filter fun e => e.isDir

def showRootFiles (entries : List Entry) : List Entry :=
  (sortEntries entries).filter fun e => !e.isDir && isVideoName e.name

/-- Lines 69-82 of process_show: the season map after folder mapping
and the implied-season-1 step (`if root_files and not any(ignored)` and
`if 1 not in seasons_map`). -/
def showSeasonsMap (entries : List Entry) : List (Nat × SeasonSrc) :=
  if !(showRootFiles entries).isEmpty &&
      !((showRootFiles entries).any fun f => shouldIgnoreFile f.name) then
    (if !(mapHasKey (buildSeasonsMap (showFolders entries)) 1) then
      mapInsert (buildSeasonsMap (showFolders entries)) 1 SeasonSrc.createRootS1
    else buildSeasonsMap (showFolders entries))
  else buildSeasonsMap (showFolders entries)

/-- The operations contributed by one season number (lines 85-94). -/
def seasonScopeOps (showPath : List String) (entries : List Entry) (s : Nat) : List Op :=
  match mapFind (showSeasonsMap entries) s with
  | some (SeasonSrc.real f) =>
    processSeasonContent (showPath ++ [f.name]) f.children [] s false
  | some SeasonSrc.createRootS1 =>
    processSeasonContent showPath [] (showRootFiles entries) s true
  | none => []

/-- ShowProcessor.process_show, the operation-producing part (the log
buffer only feeds the textual report and is not modelled).  showPath is
the path of the show directory; entries are its children. -/
def processShow (showPath : List String) (entries : List Entry) : List Op :=
  (mapSortedKeys (showSeasonsMap entries)).foldl
    (fun ops s => ops ++ seasonScopeOps showPath entries s) []

/-- One emitted script command.  generate_script writes, per operation,
either a bare move line or a make-directory line followed by a move
line; nothing else (the two header lines are comments). -/
inductive Cmd where
  | mkdirWin (dir : List String)
  | mkdirPosix (dir : List String)
  | moveWin (src dst : List String)
  | mvNoClobber (src dst : List String)
deriving DecidableEq, Repr

/-- ShowProcessor.generate_script: serialize the operation list into
the chosen dialect.  Windows emits `mkdir` + `move`; POSIX emits
`mkdir -p` + `mv -n`. -/
def generateScript (isWindows : Bool) (ops : List Op) : List Cmd :=
  ops.flatMap fun op =>
    if op.isRootMove then
      if isWindows then [Cmd.mkdirWin op.destParent, Cmd.moveWin op.original op.dest]
      else [Cmd.mkdirPosix op.destParent, Cmd.mvNoClobber op.original op.dest]
    else
      if isWindows then [Cmd.moveWin op.original op.dest]
      else [Cmd.mvNoClobber op.original op.dest]

/-- Whether an emitted command can replace an existing file at its
destination without any prompt or error, per the documented semantics
of the underlying commands: POSIX `mv -n` never overwrites; `mkdir`
and `mkdir -p` never replace an existing file; cmd.exe `move` run from
a batch script overwrites an existing destination file without
prompting (its default is /Y unless the command is interactive). -/
def cmdMayClobber : Cmd → Bool
  | .moveWin _ _ => true
  | _ => false

/-- The source of a command when it moves a file. -/
def cmdMoveSrc : Cmd → Option (List String)
  | .moveWin s _ => some s
  | .mvNoClobber s _ => some s
  | _ => none

/-- Whether an episode number extracted from the name is truthy in the
sense of plan_file_rename's `if explicit_ep:` (present and nonzero). -/
def explicitTruthy (n : String) : Bool :=
  match getEpisodeFromFile n with
  | some e => decide (e ≠ 0)
  | none => false

/-- Shadow of the per-scope assignment loop: for each non-ignored file
name, the episode number lines 139-146 assign to it, annotated with
whether it was auto-assigned (no truthy explicit number). -/
def assignedAnn (counter : Nat) : List String → List (Nat × Bool)
  | [] => []
  | n :: ns =>
    if shouldIgnoreFile n then assignedAnn counter ns
    else
      let st := assignEpisode counter (getEpisodeFromFile n)
      (st.2, !explicitTruthy n) :: assignedAnn st.1 ns

/-- The assigned episode numbers of a scope, in assignment order. -/
def assignedSeq (counter : Nat) (ns : List String) : List Nat :=
  (assignedAnn counter ns).map Prod.fst

/-- The files of one season scope in processing order, each tagged with
its parent folder path: direct video files first, then the files of
each disc folder in ascending disc number. -/
def scopeFiles (cp : List String) (entries : List Entry) (seasonNum : Nat) :
    List (List String × String) :=
  let dd := discsAndDirects entries seasonNum
  dd.2.map (fun e => (cp, e.name)) ++
  (mapSortedKeys dd.1).flatMap (fun d =>
    match mapFind dd.1 d with
    | some e => (discFiles e).map (fun x => (cp ++ [e.name], x.name))
    | none => [])

/-- The planning loop run over an explicit list of (parent, name) pairs
with a single threaded counter. -/
def planTagged (seasonNum : Nat) (st : Nat × List Op) :
    List (List String × String) → Nat × List Op
  | [] => st
  | (p, n) :: rest =>
    planTagged seasonNum
      (if shouldIgnoreFile n then st else planFileRename p n seasonNum st.1 false st.2) rest

mutual

/-- Every sibling list inside the entry has pairwise distinct names —
true of any real directory tree. -/
def entryNamesOk : Entry → Bool
  | .file _ => true
  | .dir _ cs => decide ((cs.map Entry.name).Nodup) && goNamesOk cs

/-- Auxiliary list recursion for entryNamesOk. -/
def goNamesOk : List Entry → Bool
  | [] => true
  | e :: es => entryNamesOk e && goNamesOk es

end

/-- Distinct sibling names at every level of the show tree. -/
def treeNamesOk (l : List Entry) : Bool :=
  decide ((l.map Entry.name).Nodup) && goNamesOk l

mutual

/-- All entry names anywhere in the entry. -/
def entryAllNames : Entry → List String
  | .file n => [n]
  | .dir n cs => n :: goAllNames cs

/-- Auxiliary list recursion for entryAllNames. -/
def goAllNames : List Entry → List String
  | [] => []
  | e :: es => entryAllNames e ++ goAllNames es

end

/-- Whether a path (list of components relative to the tree root) names
an existing entry: every component but the last resolves to a
directory, and the last to any entry. -/
def pathExistsB (t : List Entry) : List String → Bool
  | [] => true
  | n :: rest =>
    if rest.isEmpty then t.any (fun e => e.name = n)
    else
      match t.find? (fun e => e.isDir && e.name = n) with
      | some e => pathExistsB e.children rest
      | none => false

/-- Resolve a directory path to its child list. -/
def getDir? (t : List Entry) : List String → Option (List Entry)
  | [] => some t
  | n :: rest =>
    match t.find? (fun e => e.isDir && e.name = n) with
    | some e => getDir? e.children rest
    | none => none

/-- Rewrite the child list of the directory at a path (identity when
the path does not resolve).  All directories of the matching name are
rewritten; under treeNamesOk there is at most one. -/
def modifyDirAt (t : List Entry) (p : List String) (f : List Entry → List Entry) :
    List Entry :=
  match p with
  | [] => f t
  | n :: rest =>
    t.map fun e =>
      match e with
      | .dir dn cs => if dn = n then .dir dn (modifyDirAt cs rest f) else e
      | .file _ => e

/-- Execution of the script lines emitted for one operation against a
directory tree, with the POSIX dialect's semantics:
`mkdir -p destFolder` (root moves only) creates the season directory
unless an entry of that name already exists, and `mv -n src dest` moves
the file exactly when the source file exists, the destination folder
resolves, and no entry named dest already sits there; otherwise the
tree is unchanged.  (An existing destination entry of either kind is
modelled as blocking the move; mv -n declines an existing file, and the
idempotence theorem's hypotheses rule out the directory case.) -/
def applyOp (t : List Entry) (op : Op) : List Entry :=
  let t1 :=
    if op.isRootMove then
      modifyDirAt t op.srcParent (fun cs =>
        if cs.any (fun e => e.name = seasonDirName op.seasonNum) then cs
        else cs ++ [Entry.dir (seasonDirName op.seasonNum) []])
    else t
  let srcOk :=
    match getDir? t1 op.srcParent with
    | some cs => cs.any (fun e => !e.isDir && e.name = op.srcName)
    | none => false
  let destFree :=
    match getDir? t1 op.destParent with
    | some cs => !cs.any (fun e => e.name = op.newName)
    | none => false
  if srcOk && destFree then
    let t2 := modifyDirAt t1 op.srcParent (fun cs =>
      cs.filter fun e => !(!e.isDir && e.name = op.srcName))
    modifyDirAt t2 op.destParent (fun cs => cs ++ [Entry.file op.newName])
  else t1

/-- Applying the whole generated script: the operations in emission
order. -/
def applyOps (t : List Entry) (ops : List Op) : List Entry :=
  ops.foldl applyOp t

/-! ## General lemmas about the planner -/

/-- plan_file_rename only appends to the operation list; its result on
an arbitrary accumulator is its result on the empty accumulator,
prefixed. -/
theorem planFileRename_split (parent : List String) (fname : String) (s c : Nat)
    (isR : Bool) (ops : List Op) :
    planFileRename parent fname s c isR ops =
      ((planFileRename parent fname s c isR []).1,
        ops ++ (planFileRename parent fname s c isR []).2) := by
  unfold planFileRename
  split <;> simp

/-- The counter returned by plan_file_rename is the counter computed by
the assignment step. -/
theorem planFileRename_fst (parent : List String) (fname : String) (s c : Nat)
    (isR : Bool) (ops : List Op) :
    (planFileRename parent fname s c isR ops).1 =
      (assignEpisode c (getEpisodeFromFile fname)).1 := by
  unfold planFileRename
  split <;> rfl

/-- Unfolding of the file loop on a cons. -/
theorem planFiles_cons (parent : List String) (f : Entry) (fs : List Entry) (s : Nat)
    (isR : Bool) (st : Nat × List Op) :
    planFiles parent (f :: fs) s isR st =
      planFiles parent fs s isR
        (if shouldIgnoreFile f.name then st
         else planFileRename parent f.name s st.1 isR st.2) := rfl

/-- The file loop only appends to the operation list. -/
theorem planFiles_split (files : List Entry) (parent : List String) (s : Nat)
    (isR : Bool) (c : Nat) (ops : List Op) :
    planFiles parent files s isR (c, ops) =
      ((planFiles parent files s isR (c, [])).1,
        ops ++ (planFiles parent files s isR (c, [])).2) := by
  induction files generalizing c ops with
  | nil => simp [planFiles]
  | cons f fs ih =>
    rw [planFiles_cons, planFiles_cons]
    by_cases hig : shouldIgnoreFile f.name = true
    · simp only [hig, if_true]
      exact ih c ops
    · simp only [if_neg hig]
      rw [show planFileRename parent f.name s (c, ops).1 isR (c, ops).2 =
            planFileRename parent f.name s c isR ops from rfl]
      rw [show planFileRename parent f.name s (c, ([] : List Op)).1 isR (c, ([] : List Op)).2 =
            planFileRename parent f.name s c isR [] from rfl]
      rw [planFileRename_split]
      rw [ih, ih ((planFileRename parent f.name s c isR []).1)
            ((planFileRename parent f.name s c isR []).2)]
      simp [List.append_assoc]

/-- An accumulator-append fold is the flat map of its step results. -/
theorem foldl_append_flatMap {α β : Type} (g : α → List β) (l : List α) (init : List β) :
    l.foldl (fun acc s => acc ++ g s) init = init ++ l.flatMap g := by
  induction l generalizing init with
  | nil => simp
  | cons x xs ih => simp [ih, List.append_assoc]

/-- Membership in an insertion-sorted list is membership in the
original. -/
theorem mem_insertSorted {le : α → α → Bool} {x y : α} {l : List α} :
    y ∈ insertSorted le x l ↔ y = x ∨ y ∈ l := by
  induction l with
  | nil => simp [insertSorted]
  | cons z zs ih =>
    simp only [insertSorted]
    split
    · simp [List.mem_cons]
    · simp only [List.mem_cons, ih]
      tauto

/-- Membership in a sorted list is membership in the original. -/
theorem mem_sortByB {le : α → α → Bool} {x : α} {l : List α} :
    x ∈ sortByB le l ↔ x ∈ l := by
  induction l with
  | nil => simp [sortByB]
  | cons y ys ih =>
    simp only [sortByB, List.foldr_cons, List.mem_cons]
    rw [mem_insertSorted]
    simp only [sortByB] at ih
    rw [ih]

/-- The counter never decreases in one assignment step. -/
theorem assignEpisode_le_fst (c : Nat) (x : Option Nat) : c ≤ (assignEpisode c x).1 := by
  cases x with
  | none => exact Nat.le_succ c
  | some e =>
    by_cases h : e = 0
    · rw [show assignEpisode c (some e) = (c + 1, c + 1) by simp [assignEpisode, h]]
      exact Nat.le_succ c
    · rw [show assignEpisode c (some e) = (max c e, e) by simp [assignEpisode, h]]
      exact Nat.le_max_left c e

/-- The assigned number never exceeds the updated counter. -/
theorem assignEpisode_snd_le_fst (c : Nat) (x : Option Nat) :
    (assignEpisode c x).2 ≤ (assignEpisode c x).1 := by
  cases x with
  | none => exact Nat.le_refl _
  | some e =>
    by_cases h : e = 0
    · rw [show assignEpisode c (some e) = (c + 1, c + 1) by simp [assignEpisode, h]]
    · rw [show assignEpisode c (some e) = (max c e, e) by simp [assignEpisode, h]]
      exact Nat.le_max_right c e

/-- A file without a truthy explicit episode number is auto-assigned
counter + 1. -/
theorem assignEpisode_of_not_truthy {n : String} (c : Nat)
    (h : explicitTruthy n = false) :
    assignEpisode c (getEpisodeFromFile n) = (c + 1, c + 1) := by
  cases hm : getEpisodeFromFile n with
  | none => rfl
  | some e =>
    unfold explicitTruthy at h
    rw [hm] at h
    simp at h
    subst h
    rfl

/-- Every auto-assigned number in a scope strictly exceeds the counter
the scope entered with. -/
theorem assignedAnn_auto_gt (ns : List String) (c : Nat) :
    ∀ p ∈ assignedAnn c ns, p.2 = true → c < p.1 := by
  induction ns generalizing c with
  | nil => simp [assignedAnn]
  | cons n ns ih =>
    intro p hp hauto
    simp only [assignedAnn] at hp
    by_cases hig : shouldIgnoreFile n = true
    · rw [if_pos hig] at hp
      exact ih c p hp hauto
    · rw [if_neg hig] at hp
      rcases List.mem_cons.mp hp with h | h
      · subst h
        have hb : (!explicitTruthy n) = true := hauto
        have htr : explicitTruthy n = false := by
          revert hb
          cases explicitTruthy n <;> simp
        have h2 : ((assignEpisode c (getEpisodeFromFile n)).2, !explicitTruthy n).1
            = c + 1 := by
          rw [show ((assignEpisode c (getEpisodeFromFile n)).2, !explicitTruthy n).1
              = (assignEpisode c (getEpisodeFromFile n)).2 from rfl,
            assignEpisode_of_not_truthy c htr]
        rw [h2]
        omega
      · have hc' := assignEpisode_le_fst c (getEpisodeFromFile n)
        have := ih (assignEpisode c (getEpisodeFromFile n)).1 p h hauto
        omega

/-! ## Claim C2: overwrite safety of the emitted script -/

/-- C2 counterexample: in the Windows batch dialect the script emitted
for an ordinary rename is a single plain `move` command, which (run
from a batch script) silently overwrites an existing destination file;
so it is not the case that in both dialects the emitted move never
silently overwrites. -/
theorem C2_counterexample :
    generateScript true [⟨["Show", "a.mkv"], "S01E01.mkv", 1, false⟩]
      = [Cmd.moveWin ["Show", "a.mkv"] ["Show", "S01E01.mkv"]] ∧
    (generateScript true [⟨["Show", "a.mkv"], "S01E01.mkv", 1, false⟩]).any cmdMayClobber
      = true := by
  constructor
  · rfl
  · rfl

/-- C2 (amended): in the POSIX dialect every emitted command is
non-clobbering — the moves are all `mv -n` — while the Windows dialect
has no such guarantee. -/
theorem C2_amended_posix_no_clobber (ops : List Op) (c : Cmd)
    (hc : c ∈ generateScript false ops) : cmdMayClobber c = false := by
  rw [generateScript, List.mem_flatMap] at hc
  obtain ⟨op, -, hc⟩ := hc
  by_cases h : op.isRootMove = true
  · rw [if_pos h, if_neg (by simp)] at hc
    rcases List.mem_cons.mp hc with h1 | h1
    · rw [h1]; rfl
    · rw [List.mem_singleton.mp h1]; rfl
  · rw [if_neg h, if_neg (by simp)] at hc
    rw [List.mem_singleton.mp hc]
    rfl

/-- C2 witness: the amended theorem applied to a one-operation list. -/
theorem C2_witness :
    cmdMayClobber (Cmd.mvNoClobber ["Show", "x.mkv"] ["Show", "S01E01.mkv"]) = false :=
  C2_amended_posix_no_clobber [⟨["Show", "x.mkv"], "S01E01.mkv", 1, false⟩] _ (by decide)

/-! ## Claim C3: the per-file assignment rule -/

/-- C3 counterexample: a file with the explicit episode number 0
(S01E00) is NOT assigned max(counter, 0) = counter with episode 0, as
the claim states; because of Python truthiness (`if explicit_ep:`) it
is auto-numbered: with counter 7 the counter becomes 8 and the file is
renamed to S01E08. -/
theorem C3_counterexample :
    getEpisodeFromFile "S01E00.mkv" = some 0 ∧
    planFileRename [] "S01E00.mkv" 1 7 false []
      = (8, [⟨["S01E00.mkv"], "S01E08.mkv", 1, false⟩]) ∧
    (planFileRename [] "S01E00.mkv" 1 7 false []).1 ≠ max 7 0 := by
  refine ⟨by decide, by decide, by decide⟩

/-- C3 (amended): for every file processed in a scope, if the name
yields an explicit episode number E ≥ 1 the counter becomes
max(counter, E) and the file is assigned E; if it yields no episode
number, or yields the (falsy) number 0, the counter is incremented and
the file is assigned the new counter value. -/
theorem C3_amended_episode_assignment (parent : List String) (fname : String)
    (s c : Nat) (isR : Bool) (ops : List Op) :
    ((getEpisodeFromFile fname = none ∨ getEpisodeFromFile fname = some 0) →
      (planFileRename parent fname s c isR ops).1 = c + 1 ∧
      (assignEpisode c (getEpisodeFromFile fname)).2 = c + 1) ∧
    (∀ e, getEpisodeFromFile fname = some e → e ≠ 0 →
      (planFileRename parent fname s c isR ops).1 = max c e ∧
      (assignEpisode c (getEpisodeFromFile fname)).2 = e) := by
  constructor
  · intro h
    rw [planFileRename_fst]
    rcases h with h | h <;> rw [h] <;> simp [assignEpisode]
  · intro e he h0
    rw [planFileRename_fst, he]
    simp [assignEpisode, h0]

/-- C3 witness: the amended rule applied at two concrete files. -/
theorem C3_witness :
    (planFileRename [] "a.mkv" 1 0 false []).1 = 0 + 1 ∧
    (planFileRename [] "b S03E07.mkv" 1 2 false []).1 = max 2 7 := by
  constructor
  · exact ((C3_amended_episode_assignment [] "a.mkv" 1 0 false []).1
      (Or.inl (by decide))).1
  · exact ((C3_amended_episode_assignment [] "b S03E07.mkv" 1 2 false []).2
      7 (by decide) (by decide)).1

/-! ## Claim C4: monotone numbering within a scope -/

/-- C4 counterexample: a scope processing an explicit E05 file and then
an explicit E03 file assigns the sequence [5, 3], which is not
non-decreasing; the planner's operations show the same names. -/
theorem C4_counterexample :
    assignedSeq 0 ["a S01E05.mkv", "b S01E03.mkv"] = [5, 3] ∧
    (assignedSeq 0 ["a S01E05.mkv", "b S01E03.mkv"]).getD 1 0 <
      (assignedSeq 0 ["a S01E05.mkv", "b S01E03.mkv"]).getD 0 0 ∧
    (processShow []
        [.dir "Season 1" [.file "a S01E05.mkv", .file "b S01E03.mkv"]]).map Op.newName
      = ["S01E05.mkv", "S01E03.mkv"] := by
  refine ⟨by decide, by decide, by decide⟩

/-- C4 (amended): within any scope, every auto-assigned episode number
strictly exceeds every previously assigned number — in particular every
explicit number seen earlier in the scope is a strict floor for all
later auto-assigned numbers.  (The full assigned sequence is not
non-decreasing in general: it drops at a file whose explicit number is
below an earlier assigned number.) -/
theorem C4_amended_auto_floor (c : Nat) (ns : List String) :
    List.Pairwise (fun p q => q.2 = true → p.1 < q.1) (assignedAnn c ns) := by
  induction ns generalizing c with
  | nil => exact List.Pairwise.nil
  | cons n ns ih =>
    simp only [assignedAnn]
    by_cases hig : shouldIgnoreFile n = true
    · rw [if_pos hig]
      exact ih c
    · rw [if_neg hig]
      refine List.Pairwise.cons ?_ (ih _)
      intro q hq hqauto
      have h1 := assignedAnn_auto_gt ns (assignEpisode c (getEpisodeFromFile n)).1 q hq hqauto
      have h2 := assignEpisode_snd_le_fst c (getEpisodeFromFile n)
      calc ((assignEpisode c (getEpisodeFromFile n)).2, !explicitTruthy n).1
          = (assignEpisode c (getEpisodeFromFile n)).2 := rfl
        _ ≤ (assignEpisode c (getEpisodeFromFile n)).1 := h2
        _ < q.1 := h1

/-! ## Counterexamples for C1, C5, C6, C7, C8 -/

/-- C1 counterexample: two distinct files of one season scope carrying
the same explicit episode code are both planned, and their destination
paths coincide — the operation list of a single run does contain two
entries with an identical destination. -/
theorem C1_counterexample :
    (processShow [] [.dir "Season 1"
        [.file "a S01E01.mkv", .file "b S01E01.mkv"]]).map Op.dest
      = [["Season 1", "S01E01.mkv"], ["Season 1", "S01E01.mkv"]] ∧
    ¬ ((processShow [] [.dir "Season 1"
        [.file "a S01E01.mkv", .file "b S01E01.mkv"]]).map Op.dest).Nodup ∧
    (processShow [] [.dir "Season 1"
        [.file "a S01E01.mkv", .file "b S01E01.mkv"]]).Nodup := by
  refine ⟨by decide, by decide, by decide⟩

/-- C5 counterexample: a show whose root holds one plain video file and
one SAMPLE-tagged video file gets NO synthetic season 1 and an empty
plan — the code requires that no root video file is ignored
(`not any(...)`), not merely that at least one is not ignored. -/
theorem C5_counterexample :
    shouldIgnoreFile "a.mkv" = false ∧
    isVideoName "a.mkv" = true ∧
    shouldIgnoreFile "b SAMPLE.mkv" = true ∧
    isVideoName "b SAMPLE.mkv" = true ∧
    processShow [] [.file "a.mkv", .file "b SAMPLE.mkv"] = [] := by
  refine ⟨by decide, by decide, by decide, by decide, by decide⟩

/-- C6 counterexample: in Scenario B as stated (disc folders S2D1 and
S2D2 directly under the show), both folders match season 2, the later
one overwrites the earlier in the season map, and the run plans exactly
one operation — S2D2's file becomes S02E01.mkv — instead of the claimed
S02E01/S02E02/S02E03 across both discs. -/
theorem C6_counterexample :
    getCleanSeasonNum "S2D1" = some 2 ∧
    getCleanSeasonNum "S2D2" = some 2 ∧
    processShow [] [.dir "S2D1" [.file "a.mkv", .file "b.mkv"],
        .dir "S2D2" [.file "c.mkv"]]
      = [⟨["S2D2", "c.mkv"], "S02E01.mkv", 2, false⟩] := by
  refine ⟨by decide, by decide, by decide⟩

/-- C7 counterexample: for a season folder "staffel 1" (which differs
from the canonical "Season 1"), the generated script — in either
dialect — consists of file moves only and contains no command that
renames the folder. -/
theorem C7_counterexample :
    getCleanSeasonNum "staffel 1" = some 1 ∧
    ("staffel 1" : String) ≠ seasonDirName 1 ∧
    generateScript false (processShow [] [.dir "staffel 1" [.file "Episode One.mkv"]])
      = [Cmd.mvNoClobber ["staffel 1", "Episode One.mkv"] ["staffel 1", "S01E01.mkv"]] ∧
    generateScript true (processShow [] [.dir "staffel 1" [.file "Episode One.mkv"]])
      = [Cmd.moveWin ["staffel 1", "Episode One.mkv"] ["staffel 1", "S01E01.mkv"]] ∧
    ∀ c ∈ generateScript false
        (processShow [] [.dir "staffel 1" [.file "Episode One.mkv"]]),
      cmdMoveSrc c ≠ some ["staffel 1"] := by
  refine ⟨by decide, by decide, by decide, by decide, by decide⟩

/-- C8 counterexample: in a season folder holding a.mkv and
b S01E01.mkv the first run plans two operations with the same
destination; `mv -n` declines the second move, and re-running the
planner on the applied tree plans b S01E01.mkv → S01E01.mkv again —
the second run is not empty. -/
theorem C8_counterexample :
    processShow []
        (applyOps [.dir "Season 1" [.file "a.mkv", .file "b S01E01.mkv"]]
          (processShow [] [.dir "Season 1" [.file "a.mkv", .file "b S01E01.mkv"]]))
      = [⟨["Season 1", "b S01E01.mkv"], "S01E01.mkv", 1, false⟩] := by
  decide

/-! ## Order lemmas for the insertion sort -/

theorem listLexLe_total (a b : List Char) : listLexLe a b = true ∨ listLexLe b a = true := by
  induction a generalizing b with
  | nil => exact Or.inl rfl
  | cons x xs ih =>
    cases b with
    | nil => exact Or.inr rfl
    | cons y ys =>
      by_cases h1 : x.toNat < y.toNat
      · exact Or.inl (by simp [listLexLe, h1])
      · by_cases h2 : y.toNat < x.toNat
        · exact Or.inr (by simp [listLexLe, h2])
        · rcases ih ys with h | h
          · exact Or.inl (by simp [listLexLe, h1, h2, h])
          · exact Or.inr (by simp [listLexLe, h1, h2, h, show ¬ y.toNat < x.toNat from h2])

theorem listLexLe_trans {a b c : List Char} (h1 : listLexLe a b = true)
    (h2 : listLexLe b c = true) : listLexLe a c = true := by
  induction a generalizing b c with
  | nil => rfl
  | cons x xs ih =>
    cases b with
    | nil => simp [listLexLe] at h1
    | cons y ys =>
      cases c with
      | nil => simp [listLexLe] at h2
      | cons z zs =>
        simp only [listLexLe] at h1 h2 ⊢
        by_cases hxy : x.toNat < y.toNat
        · by_cases hyz : y.toNat < z.toNat
          · simp [show x.toNat < z.toNat by omega]
          · rw [if_neg hyz] at h2
            by_cases hzy : z.toNat < y.toNat
            · rw [if_pos hzy] at h2; exact absurd h2 (by simp)
            · simp [show x.toNat < z.toNat by omega]
        · rw [if_neg hxy] at h1
          by_cases hyx : y.toNat < x.toNat
          · rw [if_pos hyx] at h1; exact absurd h1 (by simp)
          · rw [if_neg hyx] at h1
            by_cases hyz : y.toNat < z.toNat
            · simp [show x.toNat < z.toNat by omega]
            · rw [if_neg hyz] at h2
              by_cases hzy : z.toNat < y.toNat
              · rw [if_pos hzy] at h2; exact absurd h2 (by simp)
              · rw [if_neg hzy] at h2
                have hxz : ¬ x.toNat < z.toNat := by omega
                have hzx : ¬ z.toNat < x.toNat := by omega
                simp [hxz, hzx]
                exact ih h1 h2

theorem entryLe_total (a b : Entry) : entryLe a b = true ∨ entryLe b a = true :=
  listLexLe_total a.name.data b.name.data

theorem entryLe_trans : ∀ a b c : Entry, entryLe a b = true → entryLe b c = true →
    entryLe a c = true := fun _ _ _ h1 h2 => listLexLe_trans h1 h2

/-! ## Sortedness and filtering -/

/-- insertSorted preserves pairwise sortedness, given a total
transitive comparison. -/
theorem pairwise_insertSorted {le : α → α → Bool}
    (htot : ∀ a b, le a b = true ∨ le b a = true)
    (htrans : ∀ a b c, le a b = true → le b c = true → le a c = true)
    (x : α) (l : List α) (h : List.Pairwise (fun a b => le a b = true) l) :
    List.Pairwise (fun a b => le a b = true) (insertSorted le x l) := by
  induction l with
  | nil => simp [insertSorted]
  | cons y t ih =>
    rcases List.pairwise_cons.mp h with ⟨hy, ht⟩
    rw [insertSorted]
    by_cases hxy : le x y = true
    · rw [if_pos hxy]
      refine List.pairwise_cons.mpr ⟨?_, h⟩
      intro z hz
      rcases List.mem_cons.mp hz with h1 | h1
      · rw [h1]; exact hxy
      · exact htrans _ _ _ hxy (hy z h1)
    · rw [if_neg hxy]
      refine List.pairwise_cons.mpr ⟨?_, ih ht⟩
      intro z hz
      rcases mem_insertSorted.mp hz with h1 | h1
      · rw [h1]
        rcases htot x y with h2 | h2
        · exact absurd h2 hxy
        · exact h2
      · exact hy z h1

/-- The insertion sort produces a pairwise-sorted list. -/
theorem pairwise_sortByB {le : α → α → Bool}
    (htot : ∀ a b, le a b = true ∨ le b a = true)
    (htrans : ∀ a b c, le a b = true → le b c = true → le a c = true)
    (l : List α) : List.Pairwise (fun a b => le a b = true) (sortByB le l) := by
  induction l with
  | nil => exact List.Pairwise.nil
  | cons x t ih => exact pairwise_insertSorted htot htrans x (sortByB le t) ih

/-- Inserting an element that is below everything just conses it. -/
theorem insertSorted_eq_cons {le : α → α → Bool} {x : α} {l : List α}
    (h : ∀ z ∈ l, le x z = true) : insertSorted le x l = x :: l := by
  cases l with
  | nil => rfl
  | cons y t => rw [insertSorted, if_pos (h y (List.mem_cons_self y t))]

/-- Filtering commutes with insertion into a sorted list. -/
theorem filter_insertSorted {le : α → α → Bool} {p : α → Bool}
    (htrans : ∀ a b c, le a b = true → le b c = true → le a c = true)
    (x : α) (l : List α) (hl : List.Pairwise (fun a b => le a b = true) l) :
    (insertSorted le x l).filter p =
      if p x then insertSorted le x (l.filter p) else l.filter p := by
  induction l with
  | nil =>
    rw [insertSorted]
    cases hpx : p x <;> simp [List.filter, hpx, insertSorted]
  | cons y t ih =>
    rcases List.pairwise_cons.mp hl with ⟨hy, ht⟩
    rw [insertSorted]
    by_cases hxy : le x y = true
    · rw [if_pos hxy]
      cases hpx : p x with
      | false =>
        simp only [List.filter, hpx]
        simp
      | true =>
        simp only [List.filter, hpx]
        cases hpy : p y with
        | true =>
          rw [insertSorted, if_pos hxy]
          simp [hpy]
        | false =>
          rw [insertSorted_eq_cons]
          · simp [hpy]
          · intro z hz
            rcases List.mem_filter.mp hz with ⟨hz1, -⟩
            exact htrans _ _ _ hxy (hy z hz1)
    · rw [if_neg hxy]
      cases hpy : p y with
      | true =>
        simp only [List.filter, hpy]
        rw [ih ht]
        cases hpx : p x with
        | false => simp
        | true =>
          simp only [if_pos]
          rw [insertSorted, if_neg hxy]
      | false =>
        simp only [List.filter, hpy]
        exact ih ht

theorem sortByB_cons {le : α → α → Bool} (a : α) (l : List α) :
    sortByB le (a :: l) = insertSorted le a (sortByB le l) := rfl

/-- Sorting commutes with filtering. -/
theorem sortByB_filter {le : α → α → Bool} {p : α → Bool}
    (htot : ∀ a b, le a b = true ∨ le b a = true)
    (htrans : ∀ a b c, le a b = true → le b c = true → le a c = true)
    (l : List α) : sortByB le (l.filter p) = (sortByB le l).filter p := by
  induction l with
  | nil => rfl
  | cons a t ih =>
    rw [sortByB_cons,
      filter_insertSorted htrans a (sortByB le t) (pairwise_sortByB htot htrans t)]
    simp only [List.filter]
    cases hpa : p a with
    | true =>
      rw [sortByB_cons, ih]
      simp
    | false =>
      rw [ih]
      simp

/-- Entries on which the fold step is the identity can be filtered out
of a left fold. -/
theorem foldl_filter_id {α β : Type} (step : β → α → β) (keep : α → Bool)
    (hdead : ∀ acc e, keep e = false → step acc e = acc) (l : List α) (acc : β) :
    (l.filter keep).foldl step acc = l.foldl step acc := by
  induction l generalizing acc with
  | nil => rfl
  | cons e t ih =>
    simp only [List.filter, List.foldl_cons]
    cases hk : keep e with
    | true => simp only [List.foldl_cons]; exact ih (step acc e)
    | false => rw [hdead acc e hk]; exact ih acc

/-! ## Claim C10: disc number 0 -/

/-- C10: a subdirectory whose name yields disc number 0 (such as "d0")
is treated exactly as if no disc number had matched: the whole
season-content run equals the run on the tree with every such
subdirectory removed — it is never added to the disc map and its files
are never scanned, numbered, or planned. -/
theorem C10_disc_zero_skipped :
    getCleanDiscNum "d0" 2 = some 0 ∧
    ∀ (cp : List String) (entries rootFilesList : List Entry) (s : Nat) (isRoot : Bool),
      processSeasonContent cp entries rootFilesList s isRoot =
        processSeasonContent cp
          (entries.filter fun e => !(e.isDir && getCleanDiscNum e.name s == some 0))
          rootFilesList s isRoot := by
  refine ⟨by decide, ?_⟩
  intro cp entries rl s ir
  have hdd : discsAndDirects
      (entries.filter fun e => !(e.isDir && getCleanDiscNum e.name s == some 0)) s
      = discsAndDirects entries s := by
    unfold discsAndDirects
    unfold sortEntries
    rw [sortByB_filter entryLe_total entryLe_trans]
    refine foldl_filter_id _ _ ?_ _ _
    intro acc e hk
    cases e with
    | file n =>
      rw [show (Entry.file n).isDir = false from rfl] at hk
      simp at hk
    | dir n cs =>
      simp only [Entry.isDir, Bool.true_and, Bool.not_eq_false'] at hk
      have : getCleanDiscNum (Entry.dir n cs).name s = some 0 := by
        have := beq_iff_eq.mp hk
        exact this
      simp only [ddStep, this]
      simp
  cases ir with
  | true => rfl
  | false =>
    unfold processSeasonContent
    rw [hdd]

/-! ## Claim C9: season tokens match as substrings anywhere -/

theorem not_isDigitCh_of_isSepCh {c : Char} (h : isSepCh c = true) : isDigitCh c = false := by
  simp only [isSepCh, Bool.or_eq_true, decide_eq_true_eq] at h
  rcases h with ((((((((h | h) | h) | h) | h) | h) | h) | h) | h) <;> subst h <;> decide

theorem isSepCh_of_isDigitCh {c : Char} (h : isDigitCh c = true) : isSepCh c = false := by
  cases hs : isSepCh c with
  | false => rfl
  | true =>
    rw [not_isDigitCh_of_isSepCh hs] at h
    cases h

/-- sepDigits on a digit run: no separator is consumed and the maximal
digit run is taken. -/
theorem sepDigits_of_digit_head {d : Char} {rest : List Char} (hd : isDigitCh d = true) :
    sepDigits (d :: rest) = some (digitsVal (d :: rest.takeWhile isDigitCh)) := by
  simp only [sepDigits]
  rw [isSepCh_of_isDigitCh hd]
  simp [List.takeWhile_cons, hd]

/-- sepDigits on a separator followed by a digit run: the separator is
consumed greedily. -/
theorem sepDigits_of_sep_head {m d : Char} {rest : List Char} (hm : isSepCh m = true)
    (hd : isDigitCh d = true) :
    sepDigits (m :: d :: rest) = some (digitsVal (d :: rest.takeWhile isDigitCh)) := by
  simp only [sepDigits]
  simp [List.takeWhile_cons, hd, hm]

theorem sepDigits_nil : sepDigits [] = none := rfl

/-- sepDigits succeeds on an optional separator followed by a digit
run. -/
theorem sepDigits_isSome_of_shape (mid ds post : List Char)
    (hmid : mid = [] ∨ ∃ m, mid = [m] ∧ isSepCh m = true)
    (hds : ds ≠ []) (hdig : ∀ d ∈ ds, isDigitCh d = true) :
    (sepDigits (mid ++ ds ++ post)).isSome = true := by
  obtain ⟨d, ds', rfl⟩ : ∃ d ds', ds = d :: ds' := by
    cases ds with
    | nil => exact absurd rfl hds
    | cons d ds' => exact ⟨d, ds', rfl⟩
  have hd : isDigitCh d = true := hdig d (List.mem_cons_self d ds')
  rcases hmid with hmid | ⟨m, hmid, hsep⟩
  · subst hmid
    simp only [List.nil_append, List.cons_append]
    rw [sepDigits_of_digit_head hd]
    rfl
  · subst hmid
    simp only [List.cons_append, List.nil_append]
    rw [sepDigits_of_sep_head hsep hd]
    rfl

theorem tryPats_cons (q : List Char) (qs : List (List Char)) (l : List Char) :
    tryPats (q :: qs) l =
      match ciMatch q l with
      | some rest =>
        match sepDigits rest with
        | some v => some v
        | none => tryPats qs l
      | none => tryPats qs l := rfl

/-- tryPats succeeds when some alternative matches and its tail
succeeds. -/
theorem tryPats_isSome_of_mem {pats : List (List Char)} {l : List Char} {p : List Char}
    (hp : p ∈ pats) (r : List Char) (hm : ciMatch p l = some r)
    (hs : (sepDigits r).isSome = true) :
    (tryPats pats l).isSome = true := by
  induction pats with
  | nil => cases hp
  | cons q qs ih =>
    rw [tryPats_cons]
    cases hq : ciMatch q l with
    | some r' =>
      dsimp only
      cases hsd : sepDigits r' with
      | some v => rfl
      | none =>
        dsimp only
        rcases List.mem_cons.mp hp with hpq | hpq
        · subst hpq
          rw [hq] at hm
          cases hm
          rw [hsd] at hs
          cases hs
        · exact ih hpq
    | none =>
      dsimp only
      rcases List.mem_cons.mp hp with hpq | hpq
      · subst hpq
        rw [hq] at hm
        cases hm
      · exact ih hpq

theorem tryPats_nil (pats : List (List Char)) : tryPats pats [] = none := by
  induction pats with
  | nil => rfl
  | cons q qs ih =>
    rw [tryPats_cons]
    cases hq : ciMatch q [] with
    | none => exact ih
    | some r =>
      dsimp only
      have hr : r = [] := by
        cases q with
        | nil =>
          simp only [ciMatch] at hq
          exact (Option.some.inj hq).symm
        | cons x xs => exact absurd hq (by simp [ciMatch])
      subst hr
      rw [sepDigits_nil]
      exact ih

theorem searchPats_cons (pats : List (List Char)) (c : Char) (cs : List Char) :
    searchPats pats (c :: cs) =
      match tryPats pats (c :: cs) with
      | some v => some v
      | none => searchPats pats cs := rfl

/-- A successful anchored match at any position makes the search
succeed. -/
theorem searchPats_isSome_append (pats : List (List Char)) (pre suf : List Char)
    (h : (tryPats pats suf).isSome = true) :
    (searchPats pats (pre ++ suf)).isSome = true := by
  induction pre with
  | nil =>
    cases suf with
    | nil => rw [tryPats_nil] at h; cases h
    | cons c cs =>
      simp only [List.nil_append]
      rw [searchPats_cons]
      cases htry : tryPats pats (c :: cs) with
      | some v => rfl
      | none => rw [htry] at h; cases h
  | cons x xs ih =>
    simp only [List.cons_append]
    rw [searchPats_cons]
    cases htry : tryPats pats (x :: (xs ++ suf)) with
    | some v => rfl
    | none => exact ih

/-- C9: season-number extraction matches its token as a substring
anywhere in the name: any 's' or 'S' anywhere, followed by at most one
separator character and a digit run, makes get_clean_season_num return
a value; in particular "Bonus 2" is classified as season 2 and a show
folder of that name enters the season map and has its file planned as
season 2. -/
theorem C9_substring_season_match :
    getCleanSeasonNum "Bonus 2" = some 2 ∧
    processShow [] [.dir "Bonus 2" [.file "x.mkv"]]
      = [⟨["Bonus 2", "x.mkv"], "S02E01.mkv", 2, false⟩] ∧
    ∀ (pre mid ds post : List Char) (c : Char),
      (c = 's' ∨ c = 'S') →
      (mid = [] ∨ ∃ m, mid = [m] ∧ isSepCh m = true) →
      ds ≠ [] → (∀ d ∈ ds, isDigitCh d = true) →
      (getCleanSeasonNum ⟨pre ++ c :: (mid ++ ds ++ post)⟩).isSome = true := by
  refine ⟨by decide, by decide, ?_⟩
  intro pre mid ds post c hc hmid hds hdig
  show (searchPats seasonPats (pre ++ c :: (mid ++ ds ++ post))).isSome = true
  apply searchPats_isSome_append
  apply tryPats_isSome_of_mem (p := ['s']) (by decide) (mid ++ ds ++ post)
  · show ciMatch ['s'] (c :: (mid ++ ds ++ post)) = some (mid ++ ds ++ post)
    rcases hc with hc | hc <;> subst hc <;> rfl
  · exact sepDigits_isSome_of_shape mid ds post hmid hds hdig

/-- C9 witness: the general part applied to the decomposition
"Bonu" ++ "s" ++ " " ++ "2" of the claim's example. -/
theorem C9_witness :
    (getCleanSeasonNum ⟨['B', 'o', 'n', 'u'] ++ 's' :: ([' '] ++ ['2'] ++ [])⟩).isSome
      = true :=
  C9_substring_season_match.2.2 ['B', 'o', 'n', 'u'] [' '] ['2'] [] 's'
    (Or.inl rfl) (Or.inr ⟨' ', rfl, by decide⟩) (by simp) (by decide)

/-! ## Association-map lemmas -/

theorem mapFind_append_single (m : List (Nat × α)) (k : Nat) (v : α)
    (h : mapHasKey m k = false) : mapFind (m ++ [(k, v)]) k = some v := by
  induction m with
  | nil => simp [mapFind, List.find?]
  | cons p t ih =>
    simp only [mapHasKey, List.any_cons, Bool.or_eq_false_iff] at h
    obtain ⟨h1, h2⟩ := h
    simp only [List.cons_append, mapFind, List.find?]
    rw [h1]
    exact ih h2

theorem mapFind_map_overwrite (m : List (Nat × α)) (k : Nat) (v : α)
    (h : mapHasKey m k = true) :
    mapFind (m.map fun p => if p.1 = k then (k, v) else p) k = some v := by
  induction m with
  | nil => simp [mapHasKey] at h
  | cons p t ih =>
    by_cases hp : p.1 = k
    · rw [List.map_cons, show (if p.1 = k then (k, v) else p) = (k, v) from if_pos hp]
      unfold mapFind
      rw [List.find?_cons_of_pos _ (by simp)]
    · rw [List.map_cons, show (if p.1 = k then (k, v) else p) = p from if_neg hp]
      unfold mapFind
      rw [List.find?_cons_of_neg _ (by simp [hp])]
      have h' : mapHasKey t k = true := by
        simp only [mapHasKey, List.any_cons, Bool.or_eq_true, decide_eq_true_eq] at h ⊢
        rcases h with h | h
        · exact absurd h hp
        · exact h
      have := ih h'
      unfold mapFind at this
      exact this

theorem mapFind_mapInsert_self (m : List (Nat × α)) (k : Nat) (v : α) :
    mapFind (mapInsert m k v) k = some v := by
  unfold mapInsert
  by_cases h : m.any (fun p => p.1 = k) = true
  · rw [if_pos h]
    exact mapFind_map_overwrite m k v h
  · rw [if_neg h]
    exact mapFind_append_single m k v (Bool.eq_false_iff.mpr h)

theorem mapHasKey_mapInsert_self (m : List (Nat × α)) (k : Nat) (v : α) :
    mapHasKey (mapInsert m k v) k = true := by
  unfold mapInsert
  by_cases h : m.any (fun p => p.1 = k) = true
  · rw [if_pos h]
    simp only [mapHasKey, List.any_eq_true] at h ⊢
    obtain ⟨p, hp, hpk⟩ := h
    refine ⟨(k, v), List.mem_map.mpr ⟨p, hp, ?_⟩, by simp⟩
    rw [if_pos (by simpa using hpk)]
  · rw [if_neg h]
    simp only [mapHasKey, List.any_append, List.any_cons, List.any_nil]
    rw [show (decide True) = true from rfl, Bool.true_or, Bool.or_true]

theorem mem_mapSortedKeys {m : List (Nat × α)} {k : Nat} :
    k ∈ mapSortedKeys m ↔ mapHasKey m k = true := by
  unfold mapSortedKeys mapHasKey
  rw [mem_sortByB, List.any_eq_true]
  constructor
  · intro hk
    obtain ⟨p, hp, hpk⟩ := List.mem_map.mp hk
    exact ⟨p, hp, by simp [hpk]⟩
  · rintro ⟨p, hp, hpk⟩
    exact List.mem_map.mpr ⟨p, hp, of_decide_eq_true hpk⟩

/-! ## Structure of process_show -/

theorem processShow_eq_flatMap (showPath : List String) (entries : List Entry) :
    processShow showPath entries =
      (mapSortedKeys (showSeasonsMap entries)).flatMap (seasonScopeOps showPath entries) := by
  unfold processShow
  rw [foldl_append_flatMap]
  simp

theorem processSeasonContent_root (cp : List String) (entries rl : List Entry) (s : Nat) :
    processSeasonContent cp entries rl s true
      = (planFiles cp (sortByB entryLe rl) s true (0, [])).2 := rfl

/-- Characterisation of an operation appended by plan_file_rename. -/
theorem planFileRename_mem {op : Op} {parent : List String} {fname : String}
    {s c : Nat} {isR : Bool} {ops : List Op}
    (h : op ∈ (planFileRename parent fname s c isR ops).2) :
    op ∈ ops ∨
      op = ⟨parent ++ [fname],
        canonicalName s (assignEpisode c (getEpisodeFromFile fname)).2 (pathSuffix fname),
        s, isR⟩ := by
  unfold planFileRename at h
  split at h
  · rcases List.mem_append.mp h with h1 | h1
    · exact Or.inl h1
    · exact Or.inr (List.mem_singleton.mp h1)
  · exact Or.inl h

/-- In a root scope every non-ignored file is planned. -/
theorem planFiles_root_mem (files : List Entry) (f : Entry) (hf : f ∈ files)
    (hig : shouldIgnoreFile f.name = false) (parent : List String) (s : Nat)
    (st : Nat × List Op) :
    ∃ op ∈ (planFiles parent files s true st).2,
      op.original = parent ++ [f.name] ∧ op.isRootMove = true ∧ op.seasonNum = s := by
  induction files generalizing st with
  | nil => cases hf
  | cons g gs ih =>
    rw [planFiles_cons]
    rcases List.mem_cons.mp hf with hfg | hfg
    · subst hfg
      rw [if_neg (by simp [hig])]
      refine ⟨⟨parent ++ [f.name],
        canonicalName s (assignEpisode st.1 (getEpisodeFromFile f.name)).2 (pathSuffix f.name),
        s, true⟩, ?_, rfl, rfl, rfl⟩
      have hmem : (⟨parent ++ [f.name],
          canonicalName s (assignEpisode st.1 (getEpisodeFromFile f.name)).2 (pathSuffix f.name),
          s, true⟩ : Op) ∈ (planFileRename parent f.name s st.1 true st.2).2 := by
        unfold planFileRename
        rw [if_pos (Or.inr rfl)]
        simp
      rcases hx : planFileRename parent f.name s st.1 true st.2 with ⟨c', ops'⟩
      rw [hx] at hmem
      rw [planFiles_split]
      simp only [List.mem_append]
      exact Or.inl hmem
    · by_cases higg : shouldIgnoreFile g.name = true
      · rw [if_pos higg]
        exact ih hfg st
      · rw [if_neg higg]
        exact ih hfg _

/-! ## Claim C5: the synthetic season 1 -/

/-- C5 (amended): when the show root holds video files, NONE of them is
ignored, and no folder maps to season 1, the synthetic season 1 is
registered and every root video file is planned as a root move of
season 1.  (As C5_counterexample shows, one ignored root file suppresses
this entirely, so the claim's reading — at least one non-ignored root
file suffices — is wrong on the code.) -/
theorem C5_amended_synthetic_season1 (entries : List Entry)
    (h1 : (showRootFiles entries).isEmpty = false)
    (h2 : ((showRootFiles entries).any fun f => shouldIgnoreFile f.name) = false)
    (h3 : mapHasKey (buildSeasonsMap (showFolders entries)) 1 = false) :
    mapFind (showSeasonsMap entries) 1 = some SeasonSrc.createRootS1 ∧
    ∀ f ∈ showRootFiles entries, ∃ op ∈ processShow [] entries,
      op.original = [f.name] ∧ op.isRootMove = true ∧ op.seasonNum = 1 := by
  have hm : showSeasonsMap entries
      = mapInsert (buildSeasonsMap (showFolders entries)) 1 SeasonSrc.createRootS1 := by
    unfold showSeasonsMap
    rw [h1, h2, h3]
    rfl
  have hfind : mapFind (showSeasonsMap entries) 1 = some SeasonSrc.createRootS1 := by
    rw [hm]
    exact mapFind_mapInsert_self _ 1 _
  refine ⟨hfind, ?_⟩
  intro f hf
  have hig : shouldIgnoreFile f.name = false := by
    rcases hfig : shouldIgnoreFile f.name with _ | _
    · rfl
    · exfalso
      have : (showRootFiles entries).any (fun f => shouldIgnoreFile f.name) = true :=
        List.any_eq_true.mpr ⟨f, hf, hfig⟩
      rw [h2] at this
      cases this
  have hfs : f ∈ sortByB entryLe (showRootFiles entries) := mem_sortByB.mpr hf
  obtain ⟨op, hop, hprops⟩ := planFiles_root_mem (sortByB entryLe (showRootFiles entries))
    f hfs hig [] 1 (0, [])
  refine ⟨op, ?_, by simpa using hprops.1, hprops.2.1, hprops.2.2⟩
  rw [processShow_eq_flatMap]
  rw [List.mem_flatMap]
  refine ⟨1, ?_, ?_⟩
  · rw [mem_mapSortedKeys, hm]
    exact mapHasKey_mapInsert_self _ 1 _
  · unfold seasonScopeOps
    rw [hfind, processSeasonContent_root]
    exact hop

/-- C5 witness: a show with two plain root video files. -/
theorem C5_witness :
    mapFind (showSeasonsMap [.file "b.mkv", .file "a.mkv"]) 1
        = some SeasonSrc.createRootS1 ∧
    ∃ op ∈ processShow [] [.file "b.mkv", .file "a.mkv"],
      op.original = ["a.mkv"] ∧ op.isRootMove = true ∧ op.seasonNum = 1 := by
  have h := C5_amended_synthetic_season1 [.file "b.mkv", .file "a.mkv"]
    (by decide) (by decide) (by decide)
  refine ⟨h.1, h.2 (.file "a.mkv") ?_⟩
  show Entry.file "a.mkv" ∈ [Entry.file "a.mkv", Entry.file "b.mkv"]
  exact List.mem_cons_self _ _

/-! ## Claim C6: the counter continues across discs -/

theorem planTagged_cons (s : Nat) (st : Nat × List Op) (p : List String) (n : String)
    (rest : List (List String × String)) :
    planTagged s st ((p, n) :: rest) =
      planTagged s (if shouldIgnoreFile n then st
                    else planFileRename p n s st.1 false st.2) rest := rfl

theorem planTagged_append (s : Nat) (st : Nat × List Op)
    (l1 l2 : List (List String × String)) :
    planTagged s st (l1 ++ l2) = planTagged s (planTagged s st l1) l2 := by
  induction l1 generalizing st with
  | nil => rfl
  | cons x xs ih =>
    obtain ⟨p, n⟩ := x
    rw [List.cons_append, planTagged_cons, planTagged_cons]
    exact ih _

/-- The direct-file loop is the tagged loop on (parent, name) pairs. -/
theorem planFiles_eq_planTagged (files : List Entry) (parent : List String)
    (s : Nat) (st : Nat × List Op) :
    planFiles parent files s false st =
      planTagged s st (files.map fun e => (parent, e.name)) := by
  induction files generalizing st with
  | nil => rfl
  | cons f fs ih =>
    rw [planFiles_cons, List.map_cons, planTagged_cons]
    exact ih _

/-- The disc loop is the tagged loop on the concatenated disc file
lists. -/
theorem discsFold_eq_planTagged (cp : List String) (discs : List (Nat × Entry))
    (s : Nat) (keys : List Nat) (st : Nat × List Op) :
    discsFold cp discs s keys st =
      planTagged s st (keys.flatMap fun d =>
        match mapFind discs d with
        | some e => (discFiles e).map (fun x => (cp ++ [e.name], x.name))
        | none => []) := by
  induction keys generalizing st with
  | nil => rfl
  | cons k ks ih =>
    rw [show discsFold cp discs s (k :: ks) st
        = discsFold cp discs s ks
            (match mapFind discs k with
             | some e => planFiles (cp ++ [e.name]) (discFiles e) s false st
             | none => st) from rfl]
    rw [List.flatMap_cons, planTagged_append]
    cases hk : mapFind discs k with
    | some e =>
      rw [ih]
      congr 1
      exact planFiles_eq_planTagged _ _ _ _
    | none =>
      rw [show (match (none : Option Entry) with
           | some e => planFiles (cp ++ [e.name]) (discFiles e) s false st
           | none => st) = st from rfl]
      rw [show (match (none : Option Entry) with
           | some e => List.map (fun x => (cp ++ [e.name], x.name)) (discFiles e)
           | none => ([] : List (List String × String))) = [] from rfl]
      rw [show planTagged s st [] = st from rfl]
      exact ih st

/-- C6 (amended): inside one season folder the planner runs every disc
through the same counter as the direct files — the whole season scope
is one tagged file list (direct files, then the discs in ascending disc
number) folded with a single counter starting at 0.  In the corrected
Scenario B (disc folders inside a "Season 2" folder) the three files
get S02E01, S02E02, S02E03 — disc 2's file continues from disc 1's
last.  (Scenario B as literally stated in the claim behaves differently;
see C6_counterexample.) -/
theorem C6_amended_counter_continues :
    (∀ (cp : List String) (entries : List Entry) (s : Nat),
      processSeasonContent cp entries [] s false =
        (planTagged s (0, []) (scopeFiles cp entries s)).2) ∧
    processShow [] [.dir "Season 2" [.dir "S2D1" [.file "a.mkv", .file "b.mkv"],
        .dir "S2D2" [.file "c.mkv"]]]
      = [⟨["Season 2", "S2D1", "a.mkv"], "S02E01.mkv", 2, false⟩,
         ⟨["Season 2", "S2D1", "b.mkv"], "S02E02.mkv", 2, false⟩,
         ⟨["Season 2", "S2D2", "c.mkv"], "S02E03.mkv", 2, false⟩] := by
  constructor
  · intro cp entries s
    show (discsFold cp (discsAndDirects entries s).1 s
        (mapSortedKeys (discsAndDirects entries s).1)
        (planFiles cp (discsAndDirects entries s).2 s false (0, []))).2 = _
    rw [discsFold_eq_planTagged, planFiles_eq_planTagged]
    rw [← planTagged_append]
    rfl
  · decide

/-! ## Claim C7: the script contains no directory renames -/

/-- Operations produced by the file loop: either inherited from the
accumulator or a rename of one of the listed files. -/
theorem mem_planFiles {op : Op} (parent : List String) (files : List Entry) (s : Nat)
    (isR : Bool) (st : Nat × List Op) (h : op ∈ (planFiles parent files s isR st).2) :
    op ∈ st.2 ∨ ∃ f ∈ files,
      op.original = parent ++ [f.name] ∧ op.isRootMove = isR ∧ op.seasonNum = s := by
  induction files generalizing st with
  | nil => exact Or.inl h
  | cons g gs ih =>
    rw [planFiles_cons] at h
    by_cases hig : shouldIgnoreFile g.name = true
    · rw [if_pos hig] at h
      rcases ih _ h with h1 | ⟨f, hf, hprops⟩
      · exact Or.inl h1
      · exact Or.inr ⟨f, List.mem_cons_of_mem g hf, hprops⟩
    · rw [if_neg hig] at h
      rcases ih _ h with h1 | ⟨f, hf, hprops⟩
      · rcases planFileRename_mem h1 with h2 | h2
        · exact Or.inl h2
        · subst h2
          exact Or.inr ⟨g, List.mem_cons_self g gs, rfl, rfl, rfl⟩
      · exact Or.inr ⟨f, List.mem_cons_of_mem g hf, hprops⟩

/-- Operations produced by the disc loop: either inherited or a rename
of a file of one of the selected disc folders. -/
theorem mem_discsFold {op : Op} (cp : List String) (discs : List (Nat × Entry))
    (s : Nat) (keys : List Nat) (st : Nat × List Op)
    (h : op ∈ (discsFold cp discs s keys st).2) :
    op ∈ st.2 ∨ ∃ k ∈ keys, ∃ e, mapFind discs k = some e ∧ ∃ f ∈ discFiles e,
      op.original = (cp ++ [e.name]) ++ [f.name] ∧ op.isRootMove = false ∧
      op.seasonNum = s := by
  induction keys generalizing st with
  | nil => exact Or.inl h
  | cons k ks ih =>
    rw [show discsFold cp discs s (k :: ks) st
        = discsFold cp discs s ks
            (match mapFind discs k with
             | some e => planFiles (cp ++ [e.name]) (discFiles e) s false st
             | none => st) from rfl] at h
    cases hk : mapFind discs k with
    | some e =>
      rw [hk] at h
      rcases ih _ h with h1 | ⟨k', hk', rest⟩
      · rcases mem_planFiles _ _ _ _ _ h1 with h2 | ⟨f, hf, hp⟩
        · exact Or.inl h2
        · exact Or.inr ⟨k, List.mem_cons_self k ks, e, hk, f, hf, hp⟩
      · exact Or.inr ⟨k', List.mem_cons_of_mem k hk', rest⟩
    | none =>
      rw [hk] at h
      rcases ih _ h with h1 | ⟨k', hk', rest⟩
      · exact Or.inl h1
      · exact Or.inr ⟨k', List.mem_cons_of_mem k hk', rest⟩

/-- The direct files collected from a season folder are video files. -/
theorem directs_video (entries : List Entry) (s : Nat) :
    ∀ f ∈ (discsAndDirects entries s).2, isVideoName f.name = true := by
  unfold discsAndDirects
  suffices hgen : ∀ (l : List Entry) (acc : List (Nat × Entry) × List Entry),
      (∀ f ∈ acc.2, isVideoName f.name = true) →
      ∀ f ∈ (l.foldl (ddStep s) acc).2, isVideoName f.name = true by
    exact hgen (sortEntries entries) ([], []) (by simp)
  intro l
  induction l with
  | nil => intro acc hacc f hf; exact hacc f hf
  | cons e t ih =>
    intro acc hacc
    rw [List.foldl_cons]
    refine ih (ddStep s acc e) ?_
    intro f hf
    cases e with
    | dir n cs =>
      unfold ddStep at hf
      dsimp only at hf
      rcases hdn : getCleanDiscNum (Entry.dir n cs).name s with _ | d
      · rw [hdn] at hf
        exact hacc f hf
      · rw [hdn] at hf
        dsimp only at hf
        by_cases hd0 : d ≠ 0
        · rw [if_pos hd0] at hf
          exact hacc f hf
        · rw [if_neg hd0] at hf
          exact hacc f hf
    | file n =>
      unfold ddStep at hf
      dsimp only at hf
      by_cases hv : isVideoName n = true
      · rw [if_pos hv] at hf
        rcases List.mem_append.mp hf with h1 | h1
        · exact hacc f h1
        · rw [List.mem_singleton.mp h1]
          exact hv
      · rw [if_neg hv] at hf
        exact hacc f hf

/-- Disc-folder files selected for planning are video files. -/
theorem discFiles_video {e f : Entry} (hf : f ∈ discFiles e) :
    isVideoName f.name = true := by
  unfold discFiles at hf
  rcases List.mem_filter.mp (mem_sortByB.mp hf) with ⟨-, h2⟩
  exact (Bool.and_eq_true _ _ |>.mp h2).2

/-- Root video files are video files. -/
theorem showRootFiles_video {entries : List Entry} {f : Entry}
    (hf : f ∈ showRootFiles entries) : isVideoName f.name = true := by
  unfold showRootFiles at hf
  rcases List.mem_filter.mp hf with ⟨-, h2⟩
  exact (Bool.and_eq_true _ _ |>.mp h2).2

/-- Every operation of a season scope renames a video file sitting in
some parent folder. -/
theorem mem_processSeasonContent_video {op : Op} {cp : List String}
    {entries rl : List Entry} {s : Nat} {ir : Bool}
    (hrl : ∀ f ∈ rl, isVideoName f.name = true)
    (h : op ∈ processSeasonContent cp entries rl s ir) :
    ∃ parent n, op.original = parent ++ [n] ∧ isVideoName n = true := by
  cases ir with
  | true =>
    rw [processSeasonContent_root] at h
    rcases mem_planFiles _ _ _ _ _ h with h1 | ⟨f, hf, hp⟩
    · cases h1
    · exact ⟨cp, f.name, hp.1, hrl f (mem_sortByB.mp hf)⟩
  | false =>
    rw [show processSeasonContent cp entries rl s false
        = (discsFold cp (discsAndDirects entries s).1 s
            (mapSortedKeys (discsAndDirects entries s).1)
            (planFiles cp (discsAndDirects entries s).2 s false (0, []))).2 from rfl] at h
    rcases mem_discsFold _ _ _ _ _ h with h1 | ⟨k, -, e, -, f, hf, hp⟩
    · rcases mem_planFiles _ _ _ _ _ h1 with h2 | ⟨f, hf, hp⟩
      · cases h2
      · exact ⟨cp, f.name, hp.1, directs_video entries s f hf⟩
    · exact ⟨cp ++ [e.name], f.name, hp.1, discFiles_video hf⟩

/-- C7 (amended): the generated script contains no directory renames:
every command it emits, in either dialect, is a season-directory
creation or a move whose source is a planned operation's file — and
every planned operation's source is a video file inside its parent
folder, never a season or disc folder. -/
theorem C7_amended_script_shape :
    (∀ (isWin : Bool) (ops : List Op) (c : Cmd), c ∈ generateScript isWin ops →
      (∃ d, c = Cmd.mkdirWin d ∨ c = Cmd.mkdirPosix d) ∨
      ∃ op ∈ ops, cmdMoveSrc c = some op.original) ∧
    (∀ (showPath : List String) (entries : List Entry) (op : Op),
      op ∈ processShow showPath entries →
      ∃ parent n, op.original = parent ++ [n] ∧ isVideoName n = true) := by
  constructor
  · intro isWin ops c hc
    rw [generateScript, List.mem_flatMap] at hc
    obtain ⟨op, hop, hc⟩ := hc
    by_cases hroot : op.isRootMove = true
    · rw [if_pos hroot] at hc
      cases isWin with
      | true =>
        rw [if_pos rfl] at hc
        rcases List.mem_cons.mp hc with h1 | h1
        · exact Or.inl ⟨op.destParent, Or.inl h1⟩
        · rw [List.mem_singleton.mp h1]
          exact Or.inr ⟨op, hop, rfl⟩
      | false =>
        rw [if_neg (by simp)] at hc
        rcases List.mem_cons.mp hc with h1 | h1
        · exact Or.inl ⟨op.destParent, Or.inr h1⟩
        · rw [List.mem_singleton.mp h1]
          exact Or.inr ⟨op, hop, rfl⟩
    · rw [if_neg hroot] at hc
      cases isWin with
      | true =>
        rw [if_pos rfl] at hc
        rw [List.mem_singleton.mp hc]
        exact Or.inr ⟨op, hop, rfl⟩
      | false =>
        rw [if_neg (by simp)] at hc
        rw [List.mem_singleton.mp hc]
        exact Or.inr ⟨op, hop, rfl⟩
  · intro showPath entries op h
    rw [processShow_eq_flatMap, List.mem_flatMap] at h
    obtain ⟨s, -, hop⟩ := h
    unfold seasonScopeOps at hop
    rcases hfind : mapFind (showSeasonsMap entries) s with _ | src
    · rw [hfind] at hop
      cases hop
    · rw [hfind] at hop
      cases src with
      | real f =>
        exact mem_processSeasonContent_video (by simp) hop
      | createRootS1 =>
        exact mem_processSeasonContent_video
          (fun f hf => showRootFiles_video hf) hop

/-- C7 witness: both parts applied to the "staffel 1" show. -/
theorem C7_witness :
    ((∃ d, Cmd.mvNoClobber ["staffel 1", "Episode One.mkv"] ["staffel 1", "S01E01.mkv"]
        = Cmd.mkdirWin d ∨
      Cmd.mvNoClobber ["staffel 1", "Episode One.mkv"] ["staffel 1", "S01E01.mkv"]
        = Cmd.mkdirPosix d) ∨
     ∃ op ∈ [(⟨["staffel 1", "Episode One.mkv"], "S01E01.mkv", 1, false⟩ : Op)],
       cmdMoveSrc (Cmd.mvNoClobber ["staffel 1", "Episode One.mkv"]
         ["staffel 1", "S01E01.mkv"]) = some op.original) ∧
    ∃ parent n,
      (⟨["staffel 1", "Episode One.mkv"], "S01E01.mkv", 1, false⟩ : Op).original
        = parent ++ [n] ∧ isVideoName n = true := by
  constructor
  · exact C7_amended_script_shape.1 false
      [⟨["staffel 1", "Episode One.mkv"], "S01E01.mkv", 1, false⟩] _ (by decide)
  · exact C7_amended_script_shape.2 [] [.dir "staffel 1" [.file "Episode One.mkv"]]
      _ (by decide)

/-! ## Decimal printing and parsing of canonical names -/

theorem natStrAux_fuel (n : Nat) : ∀ f1 f2 : Nat, n ≤ f1 → n ≤ f2 →
    natStrAux f1 n = natStrAux f2 n := by
  induction n using Nat.strong_induction_on with
  | _ n ih =>
    intro f1 f2 h1 h2
    by_cases h10 : n < 10
    · cases f1 with
      | zero => cases f2 with
        | zero => rfl
        | succ f2 => rw [natStrAux, natStrAux, if_pos h10]
      | succ f1 => cases f2 with
        | zero => rw [natStrAux, natStrAux, if_pos h10]
        | succ f2 => rw [natStrAux, natStrAux, if_pos h10, if_pos h10]
    · have hn0 : 10 ≤ n := by omega
      cases f1 with
      | zero => omega
      | succ f1 => cases f2 with
        | zero => omega
        | succ f2 =>
          rw [natStrAux, natStrAux, if_neg h10, if_neg h10]
          have hd : n / 10 < n := Nat.div_lt_self (by omega) (by omega)
          rw [ih (n / 10) hd f1 f2 (by omega) (by omega)]

theorem natStr_eq (n : Nat) :
    natStr n = if n < 10 then [digitCh n] else natStr (n / 10) ++ [digitCh (n % 10)] := by
  by_cases h10 : n < 10
  · rw [if_pos h10]
    unfold natStr
    cases n with
    | zero => rfl
    | succ m => rw [natStrAux, if_pos h10]
  · rw [if_neg h10]
    unfold natStr
    cases n with
    | zero => omega
    | succ m =>
      rw [natStrAux, if_neg h10]
      have hd : (m + 1) / 10 < m + 1 := Nat.div_lt_self (by omega) (by omega)
      rw [natStrAux_fuel ((m + 1) / 10) m ((m + 1) / 10) (by omega) (by omega)]

theorem isDigitCh_digitCh {d : Nat} (hd : d ≤ 9) : isDigitCh (digitCh d) = true := by
  interval_cases d <;> decide

theorem digitVal_digitCh {d : Nat} (hd : d ≤ 9) : digitVal (digitCh d) = d := by
  interval_cases d <;> decide

theorem natStr_digits (n : Nat) : ∀ c ∈ natStr n, isDigitCh c = true := by
  induction n using Nat.strong_induction_on with
  | _ n ih =>
    intro c hc
    rw [natStr_eq] at hc
    by_cases h10 : n < 10
    · rw [if_pos h10] at hc
      rw [List.mem_singleton.mp hc]
      exact isDigitCh_digitCh (by omega)
    · rw [if_neg h10] at hc
      rcases List.mem_append.mp hc with h | h
      · exact ih (n / 10) (Nat.div_lt_self (by omega) (by omega)) c h
      · rw [List.mem_singleton.mp h]
        exact isDigitCh_digitCh (by omega)

theorem natStr_ne_nil (n : Nat) : natStr n ≠ [] := by
  rw [natStr_eq]
  by_cases h10 : n < 10
  · rw [if_pos h10]; simp
  · rw [if_neg h10]; simp

theorem digitsVal_append_single (l : List Char) (c : Char) :
    digitsVal (l ++ [c]) = 10 * digitsVal l + digitVal c := by
  unfold digitsVal
  rw [List.foldl_append]
  simp [Nat.mul_comm]

theorem digitsVal_natStr (n : Nat) : digitsVal (natStr n) = n := by
  induction n using Nat.strong_induction_on with
  | _ n ih =>
    rw [natStr_eq]
    by_cases h10 : n < 10
    · rw [if_pos h10]
      show digitsVal [digitCh n] = n
      unfold digitsVal
      simp [digitVal_digitCh (by omega : n ≤ 9)]
    · rw [if_neg h10]
      rw [digitsVal_append_single,
        ih (n / 10) (Nat.div_lt_self (by omega) (by omega)),
        digitVal_digitCh (by omega : n % 10 ≤ 9)]
      omega

theorem pad2_digits (n : Nat) : ∀ c ∈ pad2 n, isDigitCh c = true := by
  intro c hc
  unfold pad2 at hc
  by_cases h10 : n < 10
  · rw [if_pos h10] at hc
    rcases List.mem_cons.mp hc with h | h
    · rw [h]; decide
    · exact natStr_digits n c h
  · rw [if_neg h10] at hc
    exact natStr_digits n c hc

theorem pad2_ne_nil (n : Nat) : pad2 n ≠ [] := by
  unfold pad2
  by_cases h10 : n < 10
  · rw [if_pos h10]; simp
  · rw [if_neg h10]; exact natStr_ne_nil n

theorem digitsVal_pad2 (n : Nat) : digitsVal (pad2 n) = n := by
  unfold pad2
  by_cases h10 : n < 10
  · rw [if_pos h10]
    show digitsVal ('0' :: natStr n) = n
    unfold digitsVal
    rw [List.foldl_cons]
    show (natStr n).foldl (fun a c => a * 10 + digitVal c) (0 * 10 + digitVal '0') = n
    rw [show (0 * 10 + digitVal '0') = 0 by decide]
    exact digitsVal_natStr n
  · rw [if_neg h10]
    exact digitsVal_natStr n

theorem takeWhile_append_of_all {p : Char → Bool} (l1 l2 : List Char)
    (h : ∀ c ∈ l1, p c = true) :
    (l1 ++ l2).takeWhile p = l1 ++ l2.takeWhile p := by
  induction l1 with
  | nil => simp
  | cons c cs ih =>
    rw [List.cons_append, List.takeWhile_cons, h c (List.mem_cons_self c cs)]
    rw [List.cons_append, ih (fun x hx => h x (List.mem_cons_of_mem c hx))]
    simp

theorem pathSuffix_extOk (n : String) : extOk (pathSuffix n) := by
  unfold extOk
  simp only [pathSuffix]
  split
  · right
    exact ⟨_, rfl⟩
  · left
    rfl

theorem isEmpty_false_of_ne_nil {l : List Char} (h : l ≠ []) : l.isEmpty = false := by
  cases l with
  | nil => exact absurd rfl h
  | cons c cs => rfl

theorem searchEp_cons (c : Char) (cs : List Char) :
    searchEp (c :: cs) =
      match epMatchAt (c :: cs) with
      | some v => some v
      | none => searchEp cs := rfl

/-- The canonical target name parses back to its episode number: the
leftmost [sS]\d+[eE](\d+) match of S{s:02d}E{e:02d}{ext} sits at
position 0 and its group is e. -/
theorem getEpisodeFromFile_canonical (s e : Nat) (ext : String) (hext : extOk ext) :
    getEpisodeFromFile (canonicalName s e ext) = some e := by
  have hds : (pad2 s ++ 'E' :: (pad2 e ++ ext.data)).takeWhile isDigitCh = pad2 s := by
    rw [takeWhile_append_of_all _ _ (pad2_digits s), List.takeWhile_cons]
    rw [show isDigitCh 'E' = false from rfl]
    simp
  have hes : (pad2 e ++ ext.data).takeWhile isDigitCh = pad2 e := by
    rcases hext with h | ⟨t, h⟩
    · rw [h, show ("" : String).data = [] from rfl, List.append_nil]
      have h2 := takeWhile_append_of_all (pad2 e) [] (pad2_digits e)
      simpa using h2
    · rw [h, takeWhile_append_of_all _ _ (pad2_digits e), List.takeWhile_cons]
      rw [show isDigitCh '.' = false from rfl]
      simp
  have hmatch : epMatchAt ('S' :: (pad2 s ++ 'E' :: (pad2 e ++ ext.data))) = some e := by
    unfold epMatchAt
    dsimp only
    rw [if_pos (by decide)]
    rw [hds, isEmpty_false_of_ne_nil (pad2_ne_nil s)]
    rw [if_neg (by simp)]
    rw [List.drop_left]
    dsimp only
    rw [if_pos (by decide)]
    rw [hes, isEmpty_false_of_ne_nil (pad2_ne_nil e)]
    rw [if_neg (by simp)]
    rw [digitsVal_pad2]
  have hdata : (canonicalName s e ext).data
      = 'S' :: (pad2 s ++ 'E' :: (pad2 e ++ ext.data)) := by
    show ('S' :: pad2 s ++ 'E' :: pad2 e ++ ext.data)
      = 'S' :: (pad2 s ++ 'E' :: (pad2 e ++ ext.data))
    simp
  show searchEp (canonicalName s e ext).data = some e
  rw [hdata, searchEp_cons, hmatch]

/-! ## More association-map and sorting lemmas -/

theorem mapFind_map_overwrite_ne {m : List (Nat × α)} {k s : Nat} (v : α) (h : s ≠ k) :
    mapFind (m.map fun p => if p.1 = k then (k, v) else p) s = mapFind m s := by
  induction m with
  | nil => rfl
  | cons p t ih =>
    rw [List.map_cons]
    by_cases hp : p.1 = k
    · rw [show (if p.1 = k then (k, v) else p) = (k, v) from if_pos hp]
      unfold mapFind
      rw [List.find?_cons_of_neg _ (by simp [Ne.symm h]),
        List.find?_cons_of_neg _ (by simp [hp, Ne.symm h])]
      unfold mapFind at ih
      exact ih
    · rw [show (if p.1 = k then (k, v) else p) = p from if_neg hp]
      by_cases hps : p.1 = s
      · unfold mapFind
        rw [List.find?_cons_of_pos _ (by simp [hps]),
          List.find?_cons_of_pos _ (by simp [hps])]
      · unfold mapFind
        rw [List.find?_cons_of_neg _ (by simp [hps]),
          List.find?_cons_of_neg _ (by simp [hps])]
        unfold mapFind at ih
        exact ih

theorem mapFind_append_single_ne {m : List (Nat × α)} {k s : Nat} (v : α) (h : s ≠ k) :
    mapFind (m ++ [(k, v)]) s = mapFind m s := by
  induction m with
  | nil =>
    unfold mapFind
    rw [List.nil_append, List.find?_cons_of_neg _ (by simp [Ne.symm h])]
  | cons p t ih =>
    rw [List.cons_append]
    by_cases hps : p.1 = s
    · unfold mapFind
      rw [List.find?_cons_of_pos _ (by simp [hps]),
        List.find?_cons_of_pos _ (by simp [hps])]
    · unfold mapFind
      rw [List.find?_cons_of_neg _ (by simp [hps]),
        List.find?_cons_of_neg _ (by simp [hps])]
      unfold mapFind at ih
      exact ih

theorem mapFind_mapInsert_ne (m : List (Nat × α)) (k : Nat) (v : α) {s : Nat} (h : s ≠ k) :
    mapFind (mapInsert m k v) s = mapFind m s := by
  unfold mapInsert
  by_cases hk : m.any (fun p => p.1 = k) = true
  · rw [if_pos hk]
    exact mapFind_map_overwrite_ne v h
  · rw [if_neg hk]
    exact mapFind_append_single_ne v h

theorem mapInsert_keys (m : List (Nat × α)) (k : Nat) (v : α) :
    (mapInsert m k v).map (fun p => p.1)
      = if mapHasKey m k then m.map (fun p => p.1) else m.map (fun p => p.1) ++ [k] := by
  unfold mapInsert mapHasKey
  by_cases hk : m.any (fun p => p.1 = k) = true
  · rw [if_pos hk, if_pos hk, List.map_map]
    refine List.map_congr_left ?_
    intro p hp
    simp only [Function.comp]
    by_cases hpk : p.1 = k
    · rw [if_pos hpk]
      exact hpk.symm
    · rw [if_neg hpk]
  · rw [if_neg hk, if_neg hk, List.map_append]
    rfl

theorem mapInsert_keys_nodup {m : List (Nat × α)} (k : Nat) (v : α)
    (h : (m.map fun p => p.1).Nodup) : ((mapInsert m k v).map fun p => p.1).Nodup := by
  rw [mapInsert_keys]
  by_cases hk : mapHasKey m k = true
  · rw [if_pos hk]
    exact h
  · rw [if_neg hk]
    rw [List.nodup_append]
    refine ⟨h, List.nodup_singleton k, ?_⟩
    intro a ha hb
    rw [List.mem_singleton.mp hb] at ha
    obtain ⟨p, hp, hpk⟩ := List.mem_map.mp ha
    exact absurd (List.any_eq_true.mpr ⟨p, hp, decide_eq_true hpk⟩) hk

theorem perm_insertSorted (le : α → α → Bool) (x : α) (l : List α) :
    List.Perm (insertSorted le x l) (x :: l) := by
  induction l with
  | nil => exact List.Perm.refl _
  | cons y t ih =>
    rw [insertSorted]
    by_cases hxy : le x y = true
    · rw [if_pos hxy]
    · rw [if_neg hxy]
      exact (List.Perm.cons y ih).trans (List.Perm.swap x y t)

theorem perm_sortByB (le : α → α → Bool) (l : List α) : List.Perm (sortByB le l) l := by
  induction l with
  | nil => exact List.Perm.refl _
  | cons x t ih =>
    rw [sortByB_cons]
    exact (perm_insertSorted le x (sortByB le t)).trans (List.Perm.cons x ih)

theorem nodup_mapSortedKeys {m : List (Nat × α)} (h : (m.map fun p => p.1).Nodup) :
    (mapSortedKeys m).Nodup := by
  unfold mapSortedKeys
  exact ((perm_sortByB _ _).nodup_iff).mpr h

/-! ## What the season and disc maps hold -/

/-- Every value of the built season map is one of the folders, keyed by
its own season number. -/
theorem buildSeasonsMap_char {folders : List Entry} {s : Nat} {v : SeasonSrc}
    (h : mapFind (buildSeasonsMap folders) s = some v) :
    ∃ f, v = SeasonSrc.real f ∧ getCleanSeasonNum f.name = some s ∧ f ∈ folders := by
  unfold buildSeasonsMap at h
  suffices hgen : ∀ (l : List Entry) (m : List (Nat × SeasonSrc)),
      (∀ x ∈ l, x ∈ folders) →
      (∀ s v, mapFind m s = some v →
        ∃ f, v = SeasonSrc.real f ∧ getCleanSeasonNum f.name = some s ∧ f ∈ folders) →
      ∀ s v, mapFind (l.foldl (fun m f =>
          if folderIgnored f.name then m
          else match getCleanSeasonNum f.name with
            | some s => mapInsert m s (SeasonSrc.real f)
            | none => m) m) s = some v →
        ∃ f, v = SeasonSrc.real f ∧ getCleanSeasonNum f.name = some s ∧ f ∈ folders by
    refine hgen folders [] (fun x hx => hx) ?_ s v h
    intro s v hm
    simp [mapFind, List.find?] at hm
  intro l
  induction l with
  | nil => intro m hsub hm; exact hm
  | cons g t ih =>
    intro m hsub hm
    rw [List.foldl_cons]
    refine ih _ (fun x hx => hsub x (List.mem_cons_of_mem g hx)) ?_
    by_cases hig : folderIgnored g.name = true
    · rw [if_pos hig]
      exact hm
    · rw [if_neg hig]
      rcases hgs : getCleanSeasonNum g.name with _ | k
      · exact hm
      · intro s v hfind
        by_cases hsk : s = k
        · subst hsk
          rw [mapFind_mapInsert_self] at hfind
          exact ⟨g, (Option.some.inj hfind).symm, hgs,
            hsub g (List.mem_cons_self g t)⟩
        · rw [mapFind_mapInsert_ne _ _ _ hsk] at hfind
          exact hm s v hfind

/-- Every value of the disc map is a directory keyed by its own truthy
disc number. -/
theorem discsMap_char {entries : List Entry} {sN k : Nat} {e : Entry}
    (h : mapFind (discsAndDirects entries sN).1 k = some e) :
    getCleanDiscNum e.name sN = some k ∧ k ≠ 0 ∧ e.isDir = true := by
  unfold discsAndDirects at h
  suffices hgen : ∀ (l : List Entry) (acc : List (Nat × Entry) × List Entry),
      (∀ k e, mapFind acc.1 k = some e →
        getCleanDiscNum e.name sN = some k ∧ k ≠ 0 ∧ e.isDir = true) →
      ∀ k e, mapFind (l.foldl (ddStep sN) acc).1 k = some e →
        getCleanDiscNum e.name sN = some k ∧ k ≠ 0 ∧ e.isDir = true by
    refine hgen (sortEntries entries) ([], []) ?_ k e h
    intro k e hm
    simp [mapFind, List.find?] at hm
  intro l
  induction l with
  | nil => intro acc hacc; exact hacc
  | cons g t ih =>
    intro acc hacc
    rw [List.foldl_cons]
    refine ih _ ?_
    cases g with
    | file n =>
      unfold ddStep
      dsimp only
      by_cases hv : isVideoName n = true
      · rw [if_pos hv]
        exact hacc
      · rw [if_neg hv]
        exact hacc
    | dir n cs =>
      unfold ddStep
      dsimp only
      rcases hdn : getCleanDiscNum (Entry.dir n cs).name sN with _ | d
      · dsimp only
        exact hacc
      · dsimp only
        by_cases hd0 : d ≠ 0
        · rw [if_pos hd0]
          intro k e hfind
          by_cases hkd : k = d
          · subst hkd
            rw [mapFind_mapInsert_self] at hfind
            refine ⟨?_, hd0, ?_⟩
            · rw [← Option.some.inj hfind]
              exact hdn
            · rw [← Option.some.inj hfind]
              rfl
          · rw [mapFind_mapInsert_ne _ _ _ hkd] at hfind
            exact hacc k e hfind
        · rw [if_neg hd0]
          exact hacc

/-- The disc-map values come from the folded entry list. -/
theorem discsMap_mem {entries : List Entry} {sN k : Nat} {e : Entry}
    (h : mapFind (discsAndDirects entries sN).1 k = some e) : e ∈ entries := by
  unfold discsAndDirects at h
  suffices hgen : ∀ (l : List Entry) (acc : List (Nat × Entry) × List Entry),
      (∀ x ∈ l, x ∈ entries) →
      (∀ k e, mapFind acc.1 k = some e → e ∈ entries) →
      ∀ k e, mapFind (l.foldl (ddStep sN) acc).1 k = some e → e ∈ entries by
    refine hgen (sortEntries entries) ([], []) (fun x hx => mem_sortByB.mp hx) ?_ k e h
    intro k e hm
    simp [mapFind, List.find?] at hm
  intro l
  induction l with
  | nil => intro acc hsub hacc; exact hacc
  | cons g t ih =>
    intro acc hsub hacc
    rw [List.foldl_cons]
    refine ih _ (fun x hx => hsub x (List.mem_cons_of_mem g hx)) ?_
    cases g with
    | file n =>
      unfold ddStep
      dsimp only
      by_cases hv : isVideoName n = true
      · rw [if_pos hv]; exact hacc
      · rw [if_neg hv]; exact hacc
    | dir n cs =>
      unfold ddStep
      dsimp only
      rcases hdn : getCleanDiscNum (Entry.dir n cs).name sN with _ | d
      · dsimp only; exact hacc
      · dsimp only
        by_cases hd0 : d ≠ 0
        · rw [if_pos hd0]
          intro k e hfind
          by_cases hkd : k = d
          · subst hkd
            rw [mapFind_mapInsert_self] at hfind
            rw [← Option.some.inj hfind]
            exact hsub _ (List.mem_cons_self _ t)
          · rw [mapFind_mapInsert_ne _ _ _ hkd] at hfind
            exact hacc k e hfind
        · rw [if_neg hd0]
          exact hacc

/-- The direct files come from the folded entry list. -/
theorem directs_mem {entries : List Entry} {sN : Nat} {f : Entry}
    (h : f ∈ (discsAndDirects entries sN).2) : f ∈ entries := by
  unfold discsAndDirects at h
  suffices hgen : ∀ (l : List Entry) (acc : List (Nat × Entry) × List Entry),
      (∀ x ∈ l, x ∈ entries) →
      (∀ x ∈ acc.2, x ∈ entries) →
      ∀ x ∈ (l.foldl (ddStep sN) acc).2, x ∈ entries by
    refine hgen (sortEntries entries) ([], []) (fun x hx => mem_sortByB.mp hx)
      (by intro x hx; cases hx) f h
  intro l
  induction l with
  | nil => intro acc hsub hacc; exact hacc
  | cons g t ih =>
    intro acc hsub hacc
    rw [List.foldl_cons]
    refine ih _ (fun x hx => hsub x (List.mem_cons_of_mem g hx)) ?_
    cases g with
    | file n =>
      unfold ddStep
      dsimp only
      by_cases hv : isVideoName n = true
      · rw [if_pos hv]
        intro x hx
        rcases List.mem_append.mp hx with h1 | h1
        · exact hacc x h1
        · rw [List.mem_singleton.mp h1]
          exact hsub _ (List.mem_cons_self _ t)
      · rw [if_neg hv]; exact hacc
    | dir n cs =>
      unfold ddStep
      dsimp only
      rcases hdn : getCleanDiscNum (Entry.dir n cs).name sN with _ | d
      · dsimp only; exact hacc
      · dsimp only
        by_cases hd0 : d ≠ 0
        · rw [if_pos hd0]; exact hacc
        · rw [if_neg hd0]; exact hacc

/-- The season map of a show: either the sentinel at key 1, or a folder
of the show keyed by its own season number. -/
theorem showSeasonsMap_char {entries : List Entry} {s : Nat} {v : SeasonSrc}
    (h : mapFind (showSeasonsMap entries) s = some v) :
    (v = SeasonSrc.createRootS1 ∧ s = 1) ∨
    (∃ f, v = SeasonSrc.real f ∧ getCleanSeasonNum f.name = some s ∧
      f ∈ showFolders entries) := by
  unfold showSeasonsMap at h
  by_cases hc1 : (!(showRootFiles entries).isEmpty &&
      !((showRootFiles entries).any fun f => shouldIgnoreFile f.name)) = true
  · rw [if_pos hc1] at h
    by_cases hc2 : (!(mapHasKey (buildSeasonsMap (showFolders entries)) 1)) = true
    · rw [if_pos hc2] at h
      by_cases hs1 : s = 1
      · subst hs1
        rw [mapFind_mapInsert_self] at h
        exact Or.inl ⟨(Option.some.inj h).symm, rfl⟩
      · rw [mapFind_mapInsert_ne _ _ _ hs1] at h
        exact Or.inr (buildSeasonsMap_char h)
    · rw [if_neg hc2] at h
      exact Or.inr (buildSeasonsMap_char h)
  · rw [if_neg hc1] at h
    exact Or.inr (buildSeasonsMap_char h)

/-- Every entry's own name is among its names. -/
theorem name_mem_entryAllNames (e : Entry) : e.name ∈ entryAllNames e := by
  cases e with
  | file n => exact List.mem_singleton.mpr rfl
  | dir n cs => exact List.mem_cons_self _ _

/-- An entry's names are among the names of any list containing it. -/
theorem entryAllNames_sub_goAllNames {c : Entry} {l : List Entry} (hc : c ∈ l) :
    ∀ x ∈ entryAllNames c, x ∈ goAllNames l := by
  induction l with
  | nil => cases hc
  | cons e t ih =>
    intro x hx
    rw [goAllNames]
    rcases List.mem_cons.mp hc with h1 | h1
    · subst h1
      exact List.mem_append.mpr (Or.inl hx)
    · exact List.mem_append.mpr (Or.inr (ih h1 x hx))

/-- Names inside an entry's children are among the entry's names. -/
theorem goAllNames_children_sub (e : Entry) :
    ∀ x ∈ goAllNames e.children, x ∈ entryAllNames e := by
  cases e with
  | file n => intro x hx; cases hx
  | dir n cs =>
    intro x hx
    rw [entryAllNames]
    exact List.mem_cons_of_mem n hx

/-- The name of an entry of the show is among the tree's names. -/
theorem name_mem_goAllNames {e : Entry} {l : List Entry} (he : e ∈ l) :
    e.name ∈ goAllNames l :=
  entryAllNames_sub_goAllNames he e.name (name_mem_entryAllNames e)

/-- The name of a child of an entry of the show is among the tree's
names. -/
theorem child_name_mem_goAllNames {e c : Entry} {l : List Entry} (he : e ∈ l)
    (hc : c ∈ e.children) : c.name ∈ goAllNames l :=
  entryAllNames_sub_goAllNames he c.name
    (goAllNames_children_sub e c.name (entryAllNames_sub_goAllNames hc c.name
      (name_mem_entryAllNames c)))

/-- The name of a grandchild of an entry of the show is among the
tree's names. -/
theorem grandchild_name_mem_goAllNames {e c g : Entry} {l : List Entry} (he : e ∈ l)
    (hc : c ∈ e.children) (hg : g ∈ c.children) : g.name ∈ goAllNames l :=
  entryAllNames_sub_goAllNames he g.name
    (goAllNames_children_sub e g.name (entryAllNames_sub_goAllNames hc g.name
      (goAllNames_children_sub c g.name (entryAllNames_sub_goAllNames hg g.name
        (name_mem_entryAllNames g)))))

/-! ## Strictly increasing episode numbers in an all-auto scope -/

/-- Through a run of the file loop in which no file has a truthy
explicit episode number: every produced operation's new name parses to
an episode number bounded by the final counter, the parsed numbers are
strictly increasing along the operation list, and the counter never
decreases. -/
theorem planFiles_auto_pairwise (files : List Entry) (parent : List String) (s : Nat)
    (isR : Bool) (c0 : Nat) (ops0 : List Op)
    (hauto : ∀ f ∈ files, explicitTruthy f.name = false)
    (hbound : ∀ op ∈ ops0, ∃ e, e ≤ c0 ∧ getEpisodeFromFile op.newName = some e)
    (hpw : List.Pairwise (fun a b => ∀ ea eb, getEpisodeFromFile a.newName = some ea →
        getEpisodeFromFile b.newName = some eb → ea < eb) ops0) :
    (∀ op ∈ (planFiles parent files s isR (c0, ops0)).2,
      ∃ e, e ≤ (planFiles parent files s isR (c0, ops0)).1 ∧
        getEpisodeFromFile op.newName = some e) ∧
    List.Pairwise (fun a b => ∀ ea eb, getEpisodeFromFile a.newName = some ea →
        getEpisodeFromFile b.newName = some eb → ea < eb)
      (planFiles parent files s isR (c0, ops0)).2 ∧
    c0 ≤ (planFiles parent files s isR (c0, ops0)).1 := by
  induction files generalizing c0 ops0 with
  | nil => exact ⟨hbound, hpw, Nat.le_refl _⟩
  | cons f fs ih =>
    rw [planFiles_cons]
    by_cases hig : shouldIgnoreFile f.name = true
    · rw [if_pos hig]
      exact ih _ _ (fun g hg => hauto g (List.mem_cons_of_mem f hg)) hbound hpw
    · rw [if_neg hig]
      rw [show planFileRename parent f.name s (c0, ops0).1 isR (c0, ops0).2
          = planFileRename parent f.name s c0 isR ops0 from rfl]
      have hA : explicitTruthy f.name = false := hauto f (List.mem_cons_self f fs)
      have hassign := assignEpisode_of_not_truthy c0 hA
      have hstep : (planFileRename parent f.name s c0 isR ops0).1 = c0 + 1 := by
        rw [planFileRename_fst, hassign]
      have hops : (planFileRename parent f.name s c0 isR ops0).2 = ops0 ∨
          (planFileRename parent f.name s c0 isR ops0).2
            = ops0 ++ [⟨parent ++ [f.name],
                canonicalName s (c0 + 1) (pathSuffix f.name), s, isR⟩] := by
        unfold planFileRename
        rw [hassign]
        dsimp only
        split
        · exact Or.inr rfl
        · exact Or.inl rfl
      rcases hres : planFileRename parent f.name s c0 isR ops0 with ⟨c', ops'⟩
      rw [hres] at hstep hops
      dsimp only at hstep hops
      subst hstep
      have hauto' : ∀ g ∈ fs, explicitTruthy g.name = false :=
        fun g hg => hauto g (List.mem_cons_of_mem f hg)
      have hbound' : ∀ op ∈ ops', ∃ e, e ≤ c0 + 1 ∧
          getEpisodeFromFile op.newName = some e := by
        rcases hops with h | h <;> subst h
        · intro op hop
          obtain ⟨e, he, hget⟩ := hbound op hop
          exact ⟨e, by omega, hget⟩
        · intro op hop
          rcases List.mem_append.mp hop with h1 | h1
          · obtain ⟨e, he, hget⟩ := hbound op h1
            exact ⟨e, by omega, hget⟩
          · rw [List.mem_singleton.mp h1]
            exact ⟨c0 + 1, Nat.le_refl _,
              getEpisodeFromFile_canonical s (c0 + 1) _ (pathSuffix_extOk f.name)⟩
      have hpw' : List.Pairwise (fun a b => ∀ ea eb,
          getEpisodeFromFile a.newName = some ea →
          getEpisodeFromFile b.newName = some eb → ea < eb) ops' := by
        rcases hops with h | h <;> subst h
        · exact hpw
        · rw [List.pairwise_append]
          refine ⟨hpw, List.pairwise_singleton _ _, ?_⟩
          intro a ha b hb ea eb hea heb
          rw [List.mem_singleton.mp hb] at heb
          rw [getEpisodeFromFile_canonical s (c0 + 1) _ (pathSuffix_extOk f.name)] at heb
          have heb' : c0 + 1 = eb := Option.some.inj heb
          obtain ⟨e, he, hget⟩ := hbound a ha
          rw [hget] at hea
          have : ea = e := Option.some.inj hea.symm
          omega
      obtain ⟨r1, r2, r3⟩ := ih _ _ hauto' hbound' hpw'
      exact ⟨r1, r2, by omega⟩

/-- The same invariant through the disc loop. -/
theorem discsFold_auto_pairwise (keys : List Nat) (cp : List String)
    (discs : List (Nat × Entry)) (s : Nat) (st : Nat × List Op)
    (hauto : ∀ k e, mapFind discs k = some e →
      ∀ f ∈ discFiles e, explicitTruthy f.name = false)
    (hbound : ∀ op ∈ st.2, ∃ e, e ≤ st.1 ∧ getEpisodeFromFile op.newName = some e)
    (hpw : List.Pairwise (fun a b => ∀ ea eb, getEpisodeFromFile a.newName = some ea →
        getEpisodeFromFile b.newName = some eb → ea < eb) st.2) :
    (∀ op ∈ (discsFold cp discs s keys st).2,
      ∃ e, e ≤ (discsFold cp discs s keys st).1 ∧
        getEpisodeFromFile op.newName = some e) ∧
    List.Pairwise (fun a b => ∀ ea eb, getEpisodeFromFile a.newName = some ea →
        getEpisodeFromFile b.newName = some eb → ea < eb)
      (discsFold cp discs s keys st).2 ∧
    st.1 ≤ (discsFold cp discs s keys st).1 := by
  induction keys generalizing st with
  | nil => exact ⟨hbound, hpw, Nat.le_refl _⟩
  | cons k ks ih =>
    rcases st with ⟨c0, ops0⟩
    dsimp only at hbound hpw ⊢
    rw [show discsFold cp discs s (k :: ks) (c0, ops0)
        = discsFold cp discs s ks
            (match mapFind discs k with
             | some e => planFiles (cp ++ [e.name]) (discFiles e) s false (c0, ops0)
             | none => (c0, ops0)) from rfl]
    cases hk : mapFind discs k with
    | some e =>
      obtain ⟨p1, p2, p3⟩ := planFiles_auto_pairwise (discFiles e) (cp ++ [e.name]) s
        false c0 ops0 (hauto k e hk) hbound hpw
      obtain ⟨r1, r2, r3⟩ := ih (planFiles (cp ++ [e.name]) (discFiles e) s
        false (c0, ops0)) p1 p2
      exact ⟨r1, r2, Nat.le_trans p3 r3⟩
    | none => exact ih (c0, ops0) hbound hpw

/-! ## Shape of destinations -/

/-- Every operation the file loop adds has a canonical new name built
from its own season number and its source file's extension. -/
theorem mem_planFiles_shape {op : Op} (parent : List String) (files : List Entry)
    (s : Nat) (isR : Bool) (st : Nat × List Op)
    (h : op ∈ (planFiles parent files s isR st).2) :
    op ∈ st.2 ∨ ∃ e, op.newName = canonicalName op.seasonNum e (pathSuffix op.srcName) := by
  induction files generalizing st with
  | nil => exact Or.inl h
  | cons g gs ih =>
    rw [planFiles_cons] at h
    by_cases hig : shouldIgnoreFile g.name = true
    · rw [if_pos hig] at h
      exact ih _ h
    · rw [if_neg hig] at h
      rcases ih _ h with h1 | h1
      · rcases planFileRename_mem h1 with h2 | h2
        · exact Or.inl h2
        · subst h2
          refine Or.inr ⟨(assignEpisode st.1 (getEpisodeFromFile g.name)).2, ?_⟩
          dsimp only [Op.srcName]
          rw [List.getLastD_concat]
      · exact Or.inr h1

/-- The same through the disc loop. -/
theorem mem_discsFold_shape {op : Op} (cp : List String) (discs : List (Nat × Entry))
    (s : Nat) (keys : List Nat) (st : Nat × List Op)
    (h : op ∈ (discsFold cp discs s keys st).2) :
    op ∈ st.2 ∨ ∃ e, op.newName = canonicalName op.seasonNum e (pathSuffix op.srcName) := by
  induction keys generalizing st with
  | nil => exact Or.inl h
  | cons k ks ih =>
    rw [show discsFold cp discs s (k :: ks) st
        = discsFold cp discs s ks
            (match mapFind discs k with
             | some e => planFiles (cp ++ [e.name]) (discFiles e) s false st
             | none => st) from rfl] at h
    cases hk : mapFind discs k with
    | some e =>
      rw [hk] at h
      rcases ih _ h with h1 | h1
      · exact mem_planFiles_shape _ _ _ _ _ h1
      · exact Or.inr h1
    | none =>
      rw [hk] at h
      exact ih _ h

/-- Every operation of a season scope carries a canonical new name. -/
theorem mem_seasonScopeOps_newName {op : Op} {showPath : List String}
    {entries : List Entry} {s : Nat} (h : op ∈ seasonScopeOps showPath entries s) :
    ∃ e, op.newName = canonicalName op.seasonNum e (pathSuffix op.srcName) := by
  unfold seasonScopeOps at h
  cases hfind : mapFind (showSeasonsMap entries) s with
  | some v =>
    rw [hfind] at h
    cases v with
    | real f =>
      dsimp only at h
      rw [show processSeasonContent (showPath ++ [f.name]) f.children [] s false
          = (discsFold (showPath ++ [f.name]) (discsAndDirects f.children s).1 s
              (mapSortedKeys (discsAndDirects f.children s).1)
              (planFiles (showPath ++ [f.name]) (discsAndDirects f.children s).2 s
                false (0, []))).2 from rfl] at h
      rcases mem_discsFold_shape _ _ _ _ _ h with h1 | h1
      · rcases mem_planFiles_shape _ _ _ _ _ h1 with h2 | h2
        · cases h2
        · exact h2
      · exact h1
    | createRootS1 =>
      dsimp only at h
      rw [processSeasonContent_root] at h
      rcases mem_planFiles_shape _ _ _ _ _ h with h1 | h1
      · cases h1
      · exact h1
  | none =>
    rw [hfind] at h
    dsimp only at h
    cases h

/-- The destination parent folder of every operation of a season scope
starts, right after the show path, with a component whose extracted
season number is the scope's season: an existing season folder's name,
or "Season 1" for the synthetic root scope. -/
theorem seasonScopeOps_destParent {op : Op} {showPath : List String}
    {entries : List Entry} {s : Nat} (h : op ∈ seasonScopeOps showPath entries s) :
    ∃ hd rest, Op.destParent op = showPath ++ hd :: rest ∧
      getCleanSeasonNum hd = some s := by
  unfold seasonScopeOps at h
  cases hfind : mapFind (showSeasonsMap entries) s with
  | some v =>
    rw [hfind] at h
    cases v with
    | real f =>
      dsimp only at h
      have hsea : getCleanSeasonNum f.name = some s := by
        rcases showSeasonsMap_char hfind with ⟨hv, -⟩ | ⟨g, hg, hsea, -⟩
        · cases hv
        · cases hg; exact hsea
      rw [show processSeasonContent (showPath ++ [f.name]) f.children [] s false
          = (discsFold (showPath ++ [f.name]) (discsAndDirects f.children s).1 s
              (mapSortedKeys (discsAndDirects f.children s).1)
              (planFiles (showPath ++ [f.name]) (discsAndDirects f.children s).2 s
                false (0, []))).2 from rfl] at h
      rcases mem_discsFold _ _ _ _ _ h with h1 | ⟨k, -, e, -, g, -, horig, hroot, -⟩
      · rcases mem_planFiles _ _ _ _ _ h1 with h2 | ⟨g, -, horig, hroot, -⟩
        · cases h2
        · refine ⟨f.name, [], ?_, hsea⟩
          unfold Op.destParent
          rw [hroot, if_neg Bool.false_ne_true]
          dsimp only [Op.srcParent]
          rw [horig, List.dropLast_concat]
      · refine ⟨f.name, [e.name], ?_, hsea⟩
        unfold Op.destParent
        rw [hroot, if_neg Bool.false_ne_true]
        dsimp only [Op.srcParent]
        rw [horig, List.dropLast_concat, List.append_assoc]
        rfl
    | createRootS1 =>
      dsimp only at h
      have hs1 : s = 1 := by
        rcases showSeasonsMap_char hfind with ⟨-, hs⟩ | ⟨g, hg, -, -⟩
        · exact hs
        · cases hg
      rw [processSeasonContent_root] at h
      rcases mem_planFiles _ _ _ _ _ h with h1 | ⟨g, -, horig, hroot, hsn⟩
      · cases h1
      · refine ⟨seasonDirName 1, [], ?_, ?_⟩
        · unfold Op.destParent
          rw [hroot, if_pos rfl]
          dsimp only [Op.srcParent]
          rw [horig, List.dropLast_concat, hsn, hs1]
        · rw [hs1]
          decide
  | none =>
    rw [hfind] at h
    dsimp only at h
    cases h

/-- Strictly increasing parsed episode numbers force pairwise distinct
destination paths: the new name is the destination's last component. -/
theorem pairwise_dest_ne_of_incr {ops : List Op}
    (hb : ∀ op ∈ ops, ∃ e, getEpisodeFromFile op.newName = some e)
    (hpw : List.Pairwise (fun a b => ∀ ea eb, getEpisodeFromFile a.newName = some ea →
        getEpisodeFromFile b.newName = some eb → ea < eb) ops) :
    List.Pairwise (fun a b => Op.dest a ≠ Op.dest b) ops := by
  refine hpw.imp_of_mem ?_
  intro a b ha hbm hR hdest
  obtain ⟨ea, hea⟩ := hb a ha
  obtain ⟨eb, heb⟩ := hb b hbm
  have hlt := hR ea eb hea heb
  have hname : a.newName = b.newName := by
    have hlast := congrArg (fun l => l.getLastD "") hdest
    dsimp only [Op.dest] at hlast
    rwa [List.getLastD_concat, List.getLastD_concat] at hlast
  rw [hname, heb] at hea
  have : eb = ea := Option.some.inj hea
  omega

/-- Within one season scope, if no file name in the tree has a truthy
explicit episode code, the operations' destination paths are pairwise
distinct. -/
theorem seasonScopeOps_pairwise_dest {showPath : List String} {entries : List Entry}
    {s : Nat} (hauto : ∀ n ∈ goAllNames entries, explicitTruthy n = false) :
    List.Pairwise (fun a b => Op.dest a ≠ Op.dest b)
      (seasonScopeOps showPath entries s) := by
  unfold seasonScopeOps
  cases hfind : mapFind (showSeasonsMap entries) s with
  | some v =>
    cases v with
    | real f =>
      dsimp only
      have hfmem : f ∈ entries := by
        rcases showSeasonsMap_char hfind with ⟨hv, -⟩ | ⟨g, hg, -, hmem⟩
        · cases hv
        · cases hg
          exact mem_sortByB.mp (List.mem_filter.mp hmem).1
      have hd1 : ∀ g ∈ (discsAndDirects f.children s).2,
          explicitTruthy g.name = false := by
        intro g hg
        exact hauto g.name (child_name_mem_goAllNames hfmem (directs_mem hg))
      have hd2 : ∀ k e, mapFind (discsAndDirects f.children s).1 k = some e →
          ∀ g ∈ discFiles e, explicitTruthy g.name = false := by
        intro k e hke g hg
        have hech : e ∈ f.children := discsMap_mem hke
        have hgch : g ∈ e.children := by
          unfold discFiles at hg
          exact (List.mem_filter.mp (mem_sortByB.mp hg)).1
        exact hauto g.name (grandchild_name_mem_goAllNames hfmem hech hgch)
      rw [show processSeasonContent (showPath ++ [f.name]) f.children [] s false
          = (discsFold (showPath ++ [f.name]) (discsAndDirects f.children s).1 s
              (mapSortedKeys (discsAndDirects f.children s).1)
              (planFiles (showPath ++ [f.name]) (discsAndDirects f.children s).2 s
                false (0, []))).2 from rfl]
      obtain ⟨p1, p2, -⟩ := planFiles_auto_pairwise (discsAndDirects f.children s).2
        (showPath ++ [f.name]) s false 0 [] hd1 (by intro op hop; cases hop)
        List.Pairwise.nil
      obtain ⟨q1, q2, -⟩ := discsFold_auto_pairwise
        (mapSortedKeys (discsAndDirects f.children s).1) (showPath ++ [f.name])
        (discsAndDirects f.children s).1 s _ hd2 p1 p2
      exact pairwise_dest_ne_of_incr
        (fun op hop => (q1 op hop).imp fun e h => h.2) q2
    | createRootS1 =>
      dsimp only
      rw [processSeasonContent_root]
      have hd1 : ∀ g ∈ sortByB entryLe (showRootFiles entries),
          explicitTruthy g.name = false := by
        intro g hg
        have hge : g ∈ entries :=
          mem_sortByB.mp (List.mem_filter.mp (mem_sortByB.mp hg)).1
        exact hauto g.name (name_mem_goAllNames hge)
      obtain ⟨p1, p2, -⟩ := planFiles_auto_pairwise
        (sortByB entryLe (showRootFiles entries)) showPath s true 0 [] hd1
        (by intro op hop; cases hop) List.Pairwise.nil
      exact pairwise_dest_ne_of_incr
        (fun op hop => (p1 op hop).imp fun e h => h.2) p2
  | none =>
    dsimp only
    exact List.Pairwise.nil

/-- The folder pass keeps season-map keys unique (dict semantics). -/
theorem buildSeasonsMap_keys_nodup (folders : List Entry) :
    ((buildSeasonsMap folders).map fun p => p.1).Nodup := by
  unfold buildSeasonsMap
  suffices hgen : ∀ (l : List Entry) (m : List (Nat × SeasonSrc)),
      (m.map fun p => p.1).Nodup →
      ((l.foldl (fun m f =>
        if folderIgnored f.name then m
        else
          match getCleanSeasonNum f.name with
          | some s => mapInsert m s (SeasonSrc.real f)
          | none => m) m).map fun p => p.1).Nodup by
    exact hgen folders [] (by simp)
  intro l
  induction l with
  | nil => intro m hm; exact hm
  | cons g t ih =>
    intro m hm
    rw [List.foldl_cons]
    refine ih _ ?_
    by_cases hig : folderIgnored g.name = true
    · rw [if_pos hig]
      exact hm
    · rw [if_neg hig]
      cases hs : getCleanSeasonNum g.name with
      | some s => exact mapInsert_keys_nodup s _ hm
      | none => exact hm

/-- The full season map has pairwise distinct keys. -/
theorem showSeasonsMap_keys_nodup (entries : List Entry) :
    ((showSeasonsMap entries).map fun p => p.1).Nodup := by
  unfold showSeasonsMap
  split
  · split
    · exact mapInsert_keys_nodup _ _ (buildSeasonsMap_keys_nodup _)
    · exact buildSeasonsMap_keys_nodup _
  · exact buildSeasonsMap_keys_nodup _

/-- Pairwise over a flatMap from blockwise and cross-block pairwise. -/
theorem pairwise_flatMap_of {α κ : Type} {R : α → α → Prop} {g : κ → List α}
    (keys : List κ) (hin : ∀ k ∈ keys, List.Pairwise R (g k))
    (hpw : List.Pairwise (fun k j => ∀ a ∈ g k, ∀ b ∈ g j, R a b) keys) :
    List.Pairwise R (keys.flatMap g) := by
  induction keys with
  | nil => exact List.Pairwise.nil
  | cons k ks ih =>
    rw [List.flatMap_cons, List.pairwise_append]
    rcases hpw with _ | ⟨hk, hks⟩
    refine ⟨hin k (List.mem_cons_self k ks),
      ih (fun j hj => hin j (List.mem_cons_of_mem k hj)) hks, ?_⟩
    intro a ha b hb
    obtain ⟨j, hj, hbj⟩ := List.mem_flatMap.mp hb
    exact hk j hj a ha b hbj

/-- C1 (amended): each operation's target name is the canonical form
S{season:02d}E{episode:02d}{extension-of-the-source-file} for some
episode number; and provided no file name anywhere in the show tree
yields a truthy (nonzero) explicit episode code, no two operations of a
single planning run share a destination path. -/
theorem C1_amended_no_duplicate_targets (showPath : List String) (entries : List Entry)
    (hauto : ∀ n ∈ goAllNames entries, explicitTruthy n = false) :
    (∀ op ∈ processShow showPath entries,
      ∃ e, op.newName = canonicalName op.seasonNum e (pathSuffix op.srcName)) ∧
    List.Pairwise (fun a b => Op.dest a ≠ Op.dest b) (processShow showPath entries) := by
  constructor
  · intro op hop
    rw [processShow_eq_flatMap] at hop
    obtain ⟨s, -, hops⟩ := List.mem_flatMap.mp hop
    exact mem_seasonScopeOps_newName hops
  · rw [processShow_eq_flatMap]
    refine pairwise_flatMap_of _ (fun k _ => seasonScopeOps_pairwise_dest hauto) ?_
    have hnd : (mapSortedKeys (showSeasonsMap entries)).Nodup :=
      nodup_mapSortedKeys (showSeasonsMap_keys_nodup entries)
    refine List.Pairwise.imp_of_mem ?_ hnd
    intro k j hk hj hne a ha b hb hdest
    obtain ⟨hd1, r1, hp1, hs1⟩ := seasonScopeOps_destParent ha
    obtain ⟨hd2, r2, hp2, hs2⟩ := seasonScopeOps_destParent hb
    dsimp only [Op.dest] at hdest
    have hpar : Op.destParent a = Op.destParent b := (List.append_inj' hdest rfl).1
    rw [hp1, hp2] at hpar
    have htail : hd1 :: r1 = hd2 :: r2 := (List.append_inj hpar rfl).2
    have hhd : hd1 = hd2 := by injection htail
    rw [hhd] at hs1
    rw [hs1] at hs2
    exact hne (Option.some.inj hs2)

/-- Witness for C1 on a concrete auto-numbered show. -/
theorem C1_witness :
    (∀ n ∈ goAllNames [Entry.dir "Season 1" [Entry.file "a.mkv", Entry.file "b.mkv"]],
      explicitTruthy n = false) ∧
    ((∀ op ∈ processShow []
        [Entry.dir "Season 1" [Entry.file "a.mkv", Entry.file "b.mkv"]],
      ∃ e, op.newName = canonicalName op.seasonNum e (pathSuffix op.srcName)) ∧
    List.Pairwise (fun a b => Op.dest a ≠ Op.dest b)
      (processShow [] [Entry.dir "Season 1" [Entry.file "a.mkv", Entry.file "b.mkv"]])) :=
  ⟨by decide, C1_amended_no_duplicate_targets []
    [Entry.dir "Season 1" [Entry.file "a.mkv", Entry.file "b.mkv"]] (by decide)⟩

/-! ## Structure of extensions and canonical names -/

/-- A digit character is not a dot. -/
theorem digit_ne_dot {c : Char} (h : isDigitCh c = true) : c ≠ '.' := by
  intro heq
  subst heq
  exact absurd h (by decide)

/-- A path suffix is empty, or a dot followed by a nonempty dot-free
tail. -/
theorem pathSuffix_shape (n : String) :
    pathSuffix n = "" ∨ ∃ u, u ≠ [] ∧ (∀ c ∈ u, c ≠ '.') ∧
      (pathSuffix n).data = '.' :: u := by
  simp only [pathSuffix]
  split
  next h =>
    right
    refine ⟨(n.data.reverse.takeWhile fun c => decide (c ≠ '.')).reverse, ?_, ?_, rfl⟩
    · intro hnil
      rw [List.reverse_eq_nil_iff] at hnil
      rw [hnil] at h
      simp at h
    · intro c hc
      have hmem := List.mem_reverse.mp hc
      have := List.mem_takeWhile_imp hmem
      simpa using this
  next h =>
    left
    rfl

/-- A dot-free name has empty suffix. -/
theorem pathSuffix_nodot {l : List Char} (h : ∀ c ∈ l, c ≠ '.') :
    pathSuffix ⟨l⟩ = "" := by
  have ht := takeWhile_append_of_all (p := fun c => decide (c ≠ '.')) l.reverse []
    (fun c hc => decide_eq_true (h c (List.mem_reverse.mp hc)))
  simp only [List.append_nil, List.takeWhile_nil] at ht
  simp only [pathSuffix]
  dsimp only
  rw [ht]
  simp

/-- The suffix of a name of the form pre ++ "." ++ u, with u nonempty
and dot-free and pre nonempty, is "." ++ u. -/
theorem pathSuffix_dot (pre u : List Char) (hpre : pre ≠ []) (hu : u ≠ [])
    (hnd : ∀ c ∈ u, c ≠ '.') :
    pathSuffix ⟨pre ++ '.' :: u⟩ = ⟨'.' :: u⟩ := by
  have hrev : (pre ++ '.' :: u).reverse = u.reverse ++ '.' :: pre.reverse := by
    simp
  have ht : (u.reverse ++ '.' :: pre.reverse).takeWhile (fun c => decide (c ≠ '.'))
      = u.reverse := by
    rw [takeWhile_append_of_all u.reverse _
      (fun c hc => decide_eq_true (hnd c (List.mem_reverse.mp hc)))]
    rw [List.takeWhile_cons]
    simp
  simp only [pathSuffix]
  dsimp only
  rw [hrev, ht]
  split
  next hcond =>
    rw [List.reverse_reverse]
  next hcond =>
    exfalso
    apply hcond
    have h1 : u.reverse.length < (u.reverse ++ '.' :: pre.reverse).length := by
      simp
    have h2 : u.reverse.isEmpty = false :=
      isEmpty_false_of_ne_nil (by simpa using hu)
    have h3 : u.reverse.length + 1 ≠ (pre ++ '.' :: u).length := by
      have hp : 0 < pre.length := List.length_pos.mpr hpre
      simp only [List.length_reverse, List.length_append, List.length_cons]
      omega
    simp [h1, h2, h3]
    exact hpre

/-- Rebuilding a canonical name from a file's own suffix keeps that
suffix. -/
theorem pathSuffix_canonical (s e : Nat) (n : String) :
    pathSuffix (canonicalName s e (pathSuffix n)) = pathSuffix n := by
  have hpadchars : ∀ c ∈ 'S' :: pad2 s ++ 'E' :: pad2 e, c ≠ '.' := by
    intro c hc
    rcases List.mem_cons.mp hc with h | h
    · subst h; decide
    · rcases List.mem_append.mp h with h1 | h1
      · exact digit_ne_dot (pad2_digits s c h1)
      · rcases List.mem_cons.mp h1 with h2 | h2
        · subst h2; decide
        · exact digit_ne_dot (pad2_digits e c h2)
  rcases pathSuffix_shape n with h | ⟨u, hu, hnd, hdata⟩
  · rw [h]
    have hchars : ∀ c ∈ 'S' :: pad2 s ++ 'E' :: pad2 e ++ ("" : String).data,
        c ≠ '.' := by
      intro c hc
      apply hpadchars
      simpa using hc
    exact pathSuffix_nodot hchars
  · have hcn : canonicalName s e (pathSuffix n)
        = ⟨('S' :: (pad2 s ++ 'E' :: pad2 e)) ++ '.' :: u⟩ := by
      unfold canonicalName
      rw [hdata]
      apply congrArg
      simp
    rw [hcn, pathSuffix_dot _ u (by simp) hu hnd]
    exact (String.ext hdata).symm

/-- A canonical name with a nonzero episode number carries a truthy
explicit episode code. -/
theorem explicitTruthy_canonical (s e : Nat) (ext : String) (hext : extOk ext)
    (he : e ≠ 0) : explicitTruthy (canonicalName s e ext) = true := by
  unfold explicitTruthy
  rw [getEpisodeFromFile_canonical s e ext hext]
  exact decide_eq_true he

/-! ## Applying the script inside one season folder -/

/-- Resolving the single season folder of a one-folder show. -/
theorem getDir?_single (dn : String) (cs : List Entry) :
    getDir? [Entry.dir dn cs] [dn] = some cs := by
  unfold getDir?
  rw [List.find?_cons_of_pos _ (by simp [Entry.isDir, Entry.name])]
  rfl

/-- Rewriting the single season folder of a one-folder show. -/
theorem modifyDirAt_single (dn : String) (cs : List Entry)
    (f : List Entry → List Entry) :
    modifyDirAt [Entry.dir dn cs] [dn] f = [Entry.dir dn (f cs)] := by
  unfold modifyDirAt
  simp only [List.map]
  rw [if_pos trivial]
  rfl

/-- A non-root move within the single season folder: when the source is
present and the destination name free, the file is renamed in place. -/
theorem applyOp_same_dir (dn fn nn : String) (s : Nat) (cs : List Entry)
    (hsrc : cs.any (fun e => !e.isDir && e.name = fn) = true)
    (hfree : cs.any (fun e => e.name = nn) = false) :
    applyOp [Entry.dir dn cs] ⟨[dn, fn], nn, s, false⟩
      = [Entry.dir dn ((cs.filter fun e => !(!e.isDir && e.name = fn))
          ++ [Entry.file nn])] := by
  rw [show applyOp [Entry.dir dn cs] ⟨[dn, fn], nn, s, false⟩
      = (if ((match getDir? [Entry.dir dn cs] [dn] with
              | some l => l.any (fun e => !e.isDir && e.name = fn)
              | none => false)
            &&
            (match getDir? [Entry.dir dn cs] [dn] with
              | some l => !l.any (fun e => e.name = nn)
              | none => false)) = true then
          modifyDirAt (modifyDirAt [Entry.dir dn cs] [dn]
            (fun l => l.filter fun e => !(!e.isDir && e.name = fn))) [dn]
            (fun l => l ++ [Entry.file nn])
        else [Entry.dir dn cs]) from rfl]
  rw [getDir?_single]
  dsimp only
  rw [hsrc, hfree]
  rw [if_pos (show ((true && !false) = true) from rfl)]
  rw [modifyDirAt_single, modifyDirAt_single]

/-- With no subdirectories, the disc map stays empty. -/
theorem discsAndDirects_fst_nil (entries : List Entry) (s : Nat)
    (h : ∀ x ∈ entries, x.isDir = false) :
    (discsAndDirects entries s).1 = [] := by
  unfold discsAndDirects
  suffices hgen : ∀ (l : List Entry) (acc : List (Nat × Entry) × List Entry),
      (∀ x ∈ l, x.isDir = false) → acc.1 = [] →
      (l.foldl (ddStep s) acc).1 = [] by
    exact hgen (sortEntries entries) ([], [])
      (fun x hx => h x (mem_sortByB.mp hx)) rfl
  intro l
  induction l with
  | nil => intro acc h1 h2; exact h2
  | cons g t ih =>
    intro acc h1 h2
    rw [List.foldl_cons]
    refine ih _ (fun x hx => h1 x (List.mem_cons_of_mem g hx)) ?_
    cases g with
    | file n =>
      rw [show ddStep s acc (Entry.file n)
          = (if isVideoName n then (acc.1, acc.2 ++ [Entry.file n]) else acc) from rfl]
      split
      · exact h2
      · exact h2
    | dir n ds =>
      exact absurd (h1 (Entry.dir n ds) (List.mem_cons_self _ _)) (by simp [Entry.isDir])

/-- With no subdirectories, the direct files are exactly the video
files in sorted order. -/
theorem discsAndDirects_snd (entries : List Entry) (s : Nat)
    (h : ∀ x ∈ entries, x.isDir = false) :
    (discsAndDirects entries s).2
      = (sortEntries entries).filter (fun x => isVideoName x.name) := by
  unfold discsAndDirects
  suffices hgen : ∀ (l : List Entry) (acc : List (Nat × Entry) × List Entry),
      (∀ x ∈ l, x.isDir = false) →
      (l.foldl (ddStep s) acc).2
        = acc.2 ++ l.filter (fun x => isVideoName x.name) by
    rw [hgen (sortEntries entries) ([], []) (fun x hx => h x (mem_sortByB.mp hx))]
    rfl
  intro l
  induction l with
  | nil => intro acc h1; simp
  | cons g t ih =>
    intro acc h1
    rw [List.foldl_cons]
    cases g with
    | file n =>
      rw [show ddStep s acc (Entry.file n)
          = (if isVideoName n then (acc.1, acc.2 ++ [Entry.file n]) else acc) from rfl]
      by_cases hv : isVideoName n = true
      · rw [if_pos hv]
        rw [ih _ (fun x hx => h1 x (List.mem_cons_of_mem _ hx))]
        rw [List.filter_cons]
        simp only [Entry.name, hv, if_pos]
        simp [List.append_assoc]
      · rw [if_neg hv]
        rw [ih _ (fun x hx => h1 x (List.mem_cons_of_mem _ hx))]
        rw [List.filter_cons]
        simp [Entry.name, hv]
    | dir n ds =>
      exact absurd (h1 (Entry.dir n ds) (List.mem_cons_self _ _)) (by simp [Entry.isDir])

/-- The file loop records nothing when every file is ignored or already
canonically named for the scope's season with a nonzero episode. -/
theorem planFiles_noop (parent : List String) (files : List Entry) (s : Nat)
    (st : Nat × List Op)
    (h : ∀ f ∈ files, shouldIgnoreFile f.name = true ∨
      ∃ e, e ≠ 0 ∧ getEpisodeFromFile f.name = some e ∧
        f.name = canonicalName s e (pathSuffix f.name)) :
    (planFiles parent files s false st).2 = st.2 := by
  induction files generalizing st with
  | nil => rfl
  | cons f fs ih =>
    rw [planFiles_cons]
    by_cases hig : shouldIgnoreFile f.name = true
    · rw [if_pos hig]
      exact ih _ (fun g hg => h g (List.mem_cons_of_mem f hg))
    · rw [if_neg hig]
      rcases h f (List.mem_cons_self f fs) with hig2 | ⟨e, he0, hget, hname⟩
      · exact absurd hig2 hig
      · have hassign : assignEpisode st.1 (getEpisodeFromFile f.name) = (max st.1 e, e) := by
          rw [hget]
          unfold assignEpisode
          dsimp only
          rw [if_neg he0]
        have hpf : planFileRename parent f.name s st.1 false st.2 = (max st.1 e, st.2) := by
          unfold planFileRename
          rw [hassign]
          dsimp only
          rw [if_neg ?side]
          case side =>
            intro hc
            rcases hc with hc | hc
            · exact hc hname
            · exact Bool.false_ne_true hc
        rw [show planFileRename parent f.name s (st.1, st.2).1 false (st.1, st.2).2
            = planFileRename parent f.name s st.1 false st.2 from rfl]
        rw [hpf]
        exact ih _ (fun g hg => h g (List.mem_cons_of_mem f hg))

/-- A show consisting of one non-ignored season folder with no
subdirectories plans exactly its sorted video files through one file
loop. -/
theorem processShow_single_dir (dn : String) (s : Nat) (cs : List Entry)
    (hsea : getCleanSeasonNum dn = some s) (hig : folderIgnored dn = false)
    (hnodirs : ∀ x ∈ cs, x.isDir = false) :
    processShow [] [Entry.dir dn cs]
      = (planFiles [dn] ((sortEntries cs).filter fun x => isVideoName x.name)
          s false (0, [])).2 := by
  have hmap : showSeasonsMap [Entry.dir dn cs]
      = [(s, SeasonSrc.real (Entry.dir dn cs))] := by
    show (if folderIgnored dn = true then ([] : List (Nat × SeasonSrc))
          else
            match getCleanSeasonNum dn with
            | some t => mapInsert [] t (SeasonSrc.real (Entry.dir dn cs))
            | none => []) = [(s, SeasonSrc.real (Entry.dir dn cs))]
    rw [hig, if_neg Bool.false_ne_true, hsea]
    rfl
  unfold processShow
  rw [hmap]
  rw [show mapSortedKeys [(s, SeasonSrc.real (Entry.dir dn cs))] = [s] from rfl]
  show [] ++ seasonScopeOps [] [Entry.dir dn cs] s = _
  rw [List.nil_append]
  unfold seasonScopeOps
  rw [hmap]
  rw [show mapFind [(s, SeasonSrc.real (Entry.dir dn cs))] s
      = some (SeasonSrc.real (Entry.dir dn cs)) from by
    unfold mapFind
    rw [List.find?_cons_of_pos _ (by simp)]]
  dsimp only
  show (discsFold ([] ++ [dn]) (discsAndDirects cs s).1 s
      (mapSortedKeys (discsAndDirects cs s).1)
      (planFiles ([] ++ [dn]) (discsAndDirects cs s).2 s false (0, []))).2 = _
  rw [discsAndDirects_fst_nil cs s hnodirs, discsAndDirects_snd cs s hnodirs]
  rfl

/-- Script application step by step. -/
theorem applyOps_cons (t : List Entry) (op : Op) (ops : List Op) :
    applyOps t (op :: ops) = applyOps (applyOp t op) ops := rfl

/-- Applying the operations the file loop plans for an all-auto file
list inside one season folder: every move succeeds, the tree keeps its
single-folder shape with only files inside, and afterwards every
non-ignored video file in the folder bears the canonical name of a
nonzero episode of the scope's season. -/
theorem autoApply (files : List Entry) (c : Nat) (cs : List Entry) (dn : String)
    (s : Nat)
    (hnd : (files.map Entry.name).Nodup)
    (hdirs : ∀ x ∈ cs, x.isDir = false)
    (hsrc : ∀ g ∈ files, ∃ x ∈ cs, x.name = g.name)
    (hfa : ∀ g ∈ files, explicitTruthy g.name = false)
    (hinv : ∀ x ∈ cs, explicitTruthy x.name = false ∨
      ∃ e ext, e ≠ 0 ∧ e ≤ c ∧ extOk ext ∧ x.name = canonicalName s e ext)
    (hvid : ∀ x ∈ cs, isVideoName x.name = true → shouldIgnoreFile x.name = false →
      (∃ g ∈ files, g.name = x.name) ∨
      ∃ e, e ≠ 0 ∧ x.name = canonicalName s e (pathSuffix x.name)) :
    ∃ cs2, applyOps [Entry.dir dn cs] (planFiles [dn] files s false (c, [])).2
        = [Entry.dir dn cs2] ∧
      (∀ x ∈ cs2, x.isDir = false) ∧
      (∀ x ∈ cs2, isVideoName x.name = true → shouldIgnoreFile x.name = false →
        ∃ e, e ≠ 0 ∧ x.name = canonicalName s e (pathSuffix x.name)) := by
  induction files generalizing c cs with
  | nil =>
    refine ⟨cs, rfl, hdirs, ?_⟩
    intro x hx hv hgn
    rcases hvid x hx hv hgn with ⟨g, hg, -⟩ | h
    · cases hg
    · exact h
  | cons g gs ih =>
    by_cases hig : shouldIgnoreFile g.name = true
    · rw [planFiles_cons, if_pos hig]
      refine ih c cs (List.nodup_cons.mp hnd).2 hdirs
        (fun g' hg' => hsrc g' (List.mem_cons_of_mem g hg'))
        (fun g' hg' => hfa g' (List.mem_cons_of_mem g hg')) hinv ?_
      intro x hx hv hgn
      rcases hvid x hx hv hgn with ⟨g', hg', hname⟩ | hcan
      · rcases List.mem_cons.mp hg' with heq | hmem
        · exfalso
          subst heq
          rw [← hname] at hgn
          rw [hgn] at hig
          exact Bool.false_ne_true hig
        · exact Or.inl ⟨g', hmem, hname⟩
      · exact Or.inr hcan
    · rw [planFiles_cons, if_neg hig]
      have hexp : explicitTruthy g.name = false := hfa g (List.mem_cons_self g gs)
      have hassign := assignEpisode_of_not_truthy c hexp
      have hne : g.name ≠ canonicalName s (c + 1) (pathSuffix g.name) := by
        intro heq
        have ht := explicitTruthy_canonical s (c + 1) (pathSuffix g.name)
          (pathSuffix_extOk g.name) (Nat.succ_ne_zero c)
        rw [← heq, hexp] at ht
        exact Bool.false_ne_true ht
      have hpfr : planFileRename [dn] g.name s c false []
          = (c + 1, [⟨[dn, g.name],
              canonicalName s (c + 1) (pathSuffix g.name), s, false⟩]) := by
        unfold planFileRename
        rw [hassign]
        dsimp only
        rw [if_pos (Or.inl hne)]
        rfl
      rw [show planFileRename [dn] g.name s ((c : Nat), ([] : List Op)).1 false
          ((c : Nat), ([] : List Op)).2
          = planFileRename [dn] g.name s c false [] from rfl]
      rw [hpfr]
      rw [planFiles_split gs [dn] s false (c + 1)
        [⟨[dn, g.name], canonicalName s (c + 1) (pathSuffix g.name), s, false⟩]]
      dsimp only
      rw [List.singleton_append, applyOps_cons]
      have hsrcany : cs.any (fun e => !e.isDir && e.name = g.name) = true := by
        obtain ⟨x, hx, hxn⟩ := hsrc g (List.mem_cons_self g gs)
        refine List.any_eq_true.mpr ⟨x, hx, ?_⟩
        rw [hdirs x hx, hxn]
        simp
      have hfreeany : cs.any
          (fun e => e.name = canonicalName s (c + 1) (pathSuffix g.name)) = false := by
        by_contra hcon
        have hany : cs.any
            (fun e => e.name = canonicalName s (c + 1) (pathSuffix g.name)) = true := by
          cases hval : cs.any
              (fun e => e.name = canonicalName s (c + 1) (pathSuffix g.name)) with
          | true => rfl
          | false => exact absurd hval hcon
        obtain ⟨x, hx, hxe⟩ := List.any_eq_true.mp hany
        have hxname : x.name = canonicalName s (c + 1) (pathSuffix g.name) :=
          of_decide_eq_true hxe
        rcases hinv x hx with hxf | ⟨e, ext, he0, hele, hext, hxc⟩
        · have ht := explicitTruthy_canonical s (c + 1) (pathSuffix g.name)
            (pathSuffix_extOk g.name) (Nat.succ_ne_zero c)
          rw [← hxname, hxf] at ht
          exact Bool.false_ne_true ht
        · have hp1 : getEpisodeFromFile x.name = some e := by
            rw [hxc]
            exact getEpisodeFromFile_canonical s e ext hext
          have hp2 : getEpisodeFromFile x.name = some (c + 1) := by
            rw [hxname]
            exact getEpisodeFromFile_canonical s (c + 1) _ (pathSuffix_extOk g.name)
          rw [hp1] at hp2
          have : e = c + 1 := Option.some.inj hp2
          omega
      rw [applyOp_same_dir dn g.name _ s cs hsrcany hfreeany]
      refine ih (c + 1)
        ((cs.filter fun e => !(!e.isDir && e.name = g.name))
          ++ [Entry.file (canonicalName s (c + 1) (pathSuffix g.name))])
        (List.nodup_cons.mp hnd).2 ?_ ?_
        (fun g' hg' => hfa g' (List.mem_cons_of_mem g hg')) ?_ ?_
      · intro x hx
        rcases List.mem_append.mp hx with h1 | h1
        · exact hdirs x (List.mem_filter.mp h1).1
        · rw [List.mem_singleton.mp h1]
          rfl
      · intro g' hg'
        obtain ⟨x, hx, hxn⟩ := hsrc g' (List.mem_cons_of_mem g hg')
        refine ⟨x, List.mem_append.mpr (Or.inl (List.mem_filter.mpr ⟨hx, ?_⟩)), hxn⟩
        have hneq : g'.name ≠ g.name := by
          intro heq
          exact (List.nodup_cons.mp hnd).1 (heq ▸ List.mem_map.mpr ⟨g', hg', rfl⟩)
        rw [hdirs x hx, hxn]
        simp [hneq]
      · intro x hx
        rcases List.mem_append.mp hx with h1 | h1
        · rcases hinv x (List.mem_filter.mp h1).1 with h2 | ⟨e, ext, he0, hele, hext, hxc⟩
          · exact Or.inl h2
          · exact Or.inr ⟨e, ext, he0, Nat.le_succ_of_le hele, hext, hxc⟩
        · rw [List.mem_singleton.mp h1]
          exact Or.inr ⟨c + 1, pathSuffix g.name, Nat.succ_ne_zero c, Nat.le_refl _,
            pathSuffix_extOk g.name, rfl⟩
      · intro x hx hv hgn
        rcases List.mem_append.mp hx with h1 | h1
        · obtain ⟨hxcs, hpred⟩ := List.mem_filter.mp h1
          rcases hvid x hxcs hv hgn with ⟨g', hg', hname⟩ | hcan
          · rcases List.mem_cons.mp hg' with heq | hmem
            · exfalso
              subst heq
              rw [hdirs x hxcs, ← hname] at hpred
              simp at hpred
            · exact Or.inl ⟨g', hmem, hname⟩
          · exact Or.inr hcan
        · rw [List.mem_singleton.mp h1]
          refine Or.inr ⟨c + 1, Nat.succ_ne_zero c, ?_⟩
          show canonicalName s (c + 1) (pathSuffix g.name)
            = canonicalName s (c + 1)
                (pathSuffix (canonicalName s (c + 1) (pathSuffix g.name)))
          rw [pathSuffix_canonical]

/-- C8 (amended): for a show consisting of one non-ignored season
folder holding only files, none of which carries a truthy explicit
episode code (so no two operations can collide), running the planner
again on the tree produced by applying the generated script yields an
empty operation list. -/
theorem C8_amended_idempotent (dn : String) (s : Nat) (fs : List Entry)
    (hsea : getCleanSeasonNum dn = some s)
    (hig : folderIgnored dn = false)
    (hfiles : ∀ x ∈ fs, x.isDir = false)
    (hnd : (fs.map Entry.name).Nodup)
    (hauto : ∀ x ∈ fs, explicitTruthy x.name = false) :
    processShow []
      (applyOps [Entry.dir dn fs] (processShow [] [Entry.dir dn fs])) = [] := by
  rw [processShow_single_dir dn s fs hsea hig hfiles]
  have hperm : List.Perm (sortEntries fs) fs := perm_sortByB _ _
  have hnd1 : ((sortEntries fs).map Entry.name).Nodup :=
    ((hperm.map Entry.name).nodup_iff).mpr hnd
  obtain ⟨cs2, happ, hdirs2, hvid2⟩ := autoApply
    ((sortEntries fs).filter fun x => isVideoName x.name) 0 fs dn s
    (hnd1.sublist ((List.filter_sublist _).map Entry.name))
    hfiles
    (fun g hg => ⟨g, mem_sortByB.mp (List.mem_filter.mp hg).1, rfl⟩)
    (fun g hg => hauto g (mem_sortByB.mp (List.mem_filter.mp hg).1))
    (fun x hx => Or.inl (hauto x hx))
    (fun x hx hv hgn => Or.inl ⟨x, List.mem_filter.mpr ⟨mem_sortByB.mpr hx, hv⟩, rfl⟩)
  rw [happ]
  rw [processShow_single_dir dn s cs2 hsea hig hdirs2]
  apply planFiles_noop
  intro f hf
  have hfcs : f ∈ cs2 := mem_sortByB.mp (List.mem_filter.mp hf).1
  have hfvid : isVideoName f.name = true := (List.mem_filter.mp hf).2
  by_cases hign : shouldIgnoreFile f.name = true
  · exact Or.inl hign
  · right
    obtain ⟨e, he0, hname⟩ := hvid2 f hfcs hfvid
      (by
        cases hv : shouldIgnoreFile f.name with
        | true => exact absurd hv hign
        | false => rfl)
    refine ⟨e, he0, ?_, hname⟩
    rw [hname]
    exact getEpisodeFromFile_canonical s e _ (pathSuffix_extOk f.name)

/-- Witness for C8 on a concrete messy season folder. -/
theorem C8_witness :
    processShow []
      (applyOps [Entry.dir "Staffel 1" [Entry.file "Episode One.mkv"]]
        (processShow [] [Entry.dir "Staffel 1" [Entry.file "Episode One.mkv"]])) = [] :=
  C8_amended_idempotent "Staffel 1" 1 [Entry.file "Episode One.mkv"]
    (by decide) (by decide) (by decide) (by decide) (by decide)
